import Mathlib

/-!
Verification development for the WiredTiger Btree verifier
(src/btree/bt_vrfy.c).  The C code is shallowly embedded: machine
integers become Nat (with explicit bounds where overflow matters),
pages and their on-disk items become inductive data, the page cache is
modelled by attaching the referenced page at each reference point, and
fallible code returns Except.  Recursion between the tree walker, the
page verifier and the per-item walker is expressed by a fuel-indexed
family of functions so that every definition is executable.
-/

namespace BtVrfy

/-- Byte strings are lists of byte values. -/
abbrev Bytes := List Nat

/-! ### Constants

Constants from the C environment.  INT_MAX and UINT16_MAX are the
standard C limits.  The remaining constants come from headers that are
not part of this repository snapshot; they are modelled from the spec:
the spec fixes NOLEVEL as the descriptor-page level sentinel, LEAF as
the leaf sentinel with internal levels strictly greater, an error
return that is any nonzero value, and a deletion-marker byte. -/

def INT_MAX : Nat := 2 ^ 31 - 1

def UINT16_MAX : Nat := 65535

/-- Modelled from the spec: ERROR is any nonzero implementation-chosen
value (spec section 6, Exit codes). -/
def WT_ERROR : Int := 1

/-- Modelled from the spec: NOLEVEL, the descriptor-page level, the only
level that cannot be a valid database page level. -/
def WT_NOLEVEL : Nat := 0

/-- Modelled from the spec: the LEAF level sentinel; internal pages have
level strictly greater. -/
def WT_LLEAF : Nat := 1

/-- Modelled from the spec: size of the common page header, missing
header file.  The exact value is irrelevant to the claims; it only
shifts in-page offsets. -/
def WT_PAGE_HDR_SIZE : Nat := 28

/-- Modelled from the spec: size of the packed WT_ITEM header. -/
def WT_ITEM_SIZE : Nat := 4

/-- Modelled from the spec: sizeof(WT_OVFL), an overflow reference
holding an address and a size. -/
def WT_OVFL_SIZE : Nat := 8

/-- Modelled from the spec: sizeof(WT_OFF), an off-page reference
holding an address, a size and a 64-bit record count. -/
def WT_OFF_SIZE : Nat := 16

/-- Modelled from the spec: the deletion-marker byte of fixed-length
entries. -/
def WT_FIX_DELETE_BYTE : Nat := 1

/-- Modelled from the spec: the Btree magic number checked on the
descriptor page. -/
def WT_BTREE_MAGIC : Nat := 120897

def WT_BTREE_MAJOR_VERSION : Nat := 1

def WT_BTREE_MINOR_VERSION : Nat := 1

/-- Modelled from the spec: the mask of legal descriptor flags; the only
flag is DESC_REPEAT. -/
def WT_PAGE_DESC_MASK : Nat := 1

def WT_PAGE_DESC_REPEAT : Nat := 1

/-! ### Page and item kinds -/

/-- WT_PAGE_* page types. -/
inductive PageType where
  | descript
  | colFix
  | colInt
  | colRcc
  | colVar
  | dupInt
  | dupLeaf
  | ovfl
  | rowInt
  | rowLeaf
  | invalid
deriving DecidableEq, Repr

/-- WT_ITEM_* item types. -/
inductive ItemType where
  | key
  | keyOvfl
  | keyDup
  | keyDupOvfl
  | data
  | dataOvfl
  | dataDup
  | dataDupOvfl
  | del
  | off
deriving DecidableEq, Repr

/-! ### Diagnostics

Each constructor is one of the error messages emitted through
__wt_api_db_errx, carrying the numbers the message interpolates. -/

inductive Diag where
  | fileTooLarge
  | alreadyVerified (addr : Nat)
  | fragNeverVerified (n : Int)
  | fragsNeverVerified (n m : Int)
  | lsnNonzero (addr : Nat)
  | invalidType (addr : Nat)
  | badLevel (t : PageType) (addr level : Nat)
  | unusedNonzero (addr : Nat)
  | treeLevelMismatch (addr got expected : Nat)
  | recordCountMismatch (addr : Nat) (got expected : Nat)
  | startingRecord (addr : Nat) (got expected : Nat)
  | startRecnoNonzero (addr : Nat) (got : Nat)
  | firstKeySortsBefore (addr : Nat)
  | lastKeySortsAfter (addr : Nat)
  | illegalFormat
  | eop (entry addr : Nat)
  | eof (entry addr : Nat)
  | delfmt (entry addr : Nat)
  | rccCountZero (entry addr : Nat)
  | rccIdentical (entry prev addr : Nat)
  | itemVsPage (item addr : Nat)
  | itemLen (item addr : Nat)
  | ovflSizeMismatch (item addr : Nat)
  | incorrectSorted (lastIndx curIndx addr : Nat)
  | ovflNoData (addr : Nat)
  | ovflTrailing (addr : Nat)
  | descFail (addr : Nat)
  | externalFail (code : Int)
  | badIndex (addr : Nat)
  | bodyShape (addr : Nat)
  | noFuel
deriving DecidableEq, Repr

/-! ### Basic records -/

/-- WT_OFF: an off-page (subtree) reference.  records models the 64-bit
WT_RECORDS value. -/
structure WTOff where
  addr : Nat
  size : Nat
  records : Nat
deriving DecidableEq, Repr

/-- WT_OVFL: an overflow-page reference. -/
structure OvflRef where
  addr : Nat
  size : Nat
deriving DecidableEq, Repr

/-- A pinned overflow page as seen by the item processor: its data bytes
and the datalen field of its header. -/
structure OvflView where
  dataBytes : Bytes
  datalen : Nat
deriving DecidableEq, Repr

/-- Result of a successful __wt_bt_item_process call: either an
overflow page was pinned (and its bytes are used directly) or the
scratch buffer holds the decoded bytes. -/
structure ProcOut where
  ovfl : Option OvflView
  scratch : Bytes
deriving DecidableEq, Repr

instance exceptDecEq {e a : Type} [DecidableEq e] [DecidableEq a] :
    DecidableEq (Except e a) := fun x y =>
  match x, y with
  | .ok v, .ok w =>
    if h : v = w then isTrue (by rw [h]) else isFalse (by intro hc; cases hc; exact h rfl)
  | .error v, .error w =>
    if h : v = w then isTrue (by rw [h]) else isFalse (by intro hc; cases hc; exact h rfl)
  | .ok _, .error _ => isFalse (by intro hc; cases hc)
  | .error _, .ok _ => isFalse (by intro hc; cases hc)

/-- The key of an in-memory row index entry.  bytes is the on-page key
when no processing is needed; process models WT_KEY_PROCESS; proc is
the outcome of __wt_bt_item_process when processing is needed (error
code, or a ProcOut). -/
structure KeyMat where
  bytes : Bytes
  process : Bool
  proc : Except Int ProcOut
deriving DecidableEq, Repr

/-- WT_PAGE_DESC: the descriptor-page payload. -/
structure DescRec where
  magic : Nat
  majorv : Nat
  minorv : Nat
  intlmin : Nat
  intlmax : Nat
  leafmin : Nat
  leafmax : Nat
  recno_offset : Nat
  fixed_len : Nat
  flags : Nat
  unused1 : Bytes
  unused2 : Bytes
deriving DecidableEq, Repr

/-- WT_PAGE_HDR: the common page header.  u models the union field:
entries for entry-bearing pages, datalen for overflow and descriptor
pages. -/
structure PageHdr where
  ptype : PageType
  level : Nat
  start_recno : Nat
  lsn0 : Nat
  lsn1 : Nat
  unused0 : Nat
  unused1 : Nat
  u : Nat
deriving DecidableEq, Repr

/-! ### The page family

A Page carries its header, its file address and byte size, its
in-memory record total (page->records, computed by bt_page_inmem), its
raw body, and its in-memory index (u.icol / u.irow).  References to
other pages (overflow pages, subtree roots, off-page duplicate roots)
carry the referenced page inline: this models the page cache resolving
an address to the page stored there. -/

mutual

inductive Page where
  | mk (hdr : PageHdr) (addr : Nat) (size : Nat) (records : Nat)
       (body : PageBody) (icol : List ColIndx) (irow : List RowIndx)

inductive PageBody where
  | items (its : List RawItem)
  | colInt (offs : List WTOff)
  | colFix (raw : Bytes)
  | colRcc (raw : Bytes)
  | desc (d : DescRec)
  | ovflData (raw : Bytes)

inductive RawItem where
  | mk (itype : ItemType) (len : Nat) (bytes : Bytes)
       (ovref : Option OvflRef) (ovpage : Option Page)
       (ioff : Option WTOff) (offChild : Option Page)

inductive ColIndx where
  | mk (off : WTOff) (child : Page)

inductive RowIndx where
  | mk (key : KeyMat) (off : Option WTOff) (child : Option Page)

end

def Page.hdr : Page → PageHdr
  | .mk h _ _ _ _ _ _ => h

def Page.addr : Page → Nat
  | .mk _ a _ _ _ _ _ => a

def Page.size : Page → Nat
  | .mk _ _ s _ _ _ _ => s

def Page.records : Page → Nat
  | .mk _ _ _ r _ _ _ => r

def Page.body : Page → PageBody
  | .mk _ _ _ _ b _ _ => b

def Page.icol : Page → List ColIndx
  | .mk _ _ _ _ _ c _ => c

def Page.irow : Page → List RowIndx
  | .mk _ _ _ _ _ _ r => r

def RawItem.itype : RawItem → ItemType
  | .mk t _ _ _ _ _ _ => t

def RawItem.len : RawItem → Nat
  | .mk _ l _ _ _ _ _ => l

def RawItem.bytes : RawItem → Bytes
  | .mk _ _ b _ _ _ _ => b

def RawItem.ovref : RawItem → Option OvflRef
  | .mk _ _ _ o _ _ _ => o

def RawItem.ovpage : RawItem → Option Page
  | .mk _ _ _ _ p _ _ => p

def RawItem.ioff : RawItem → Option WTOff
  | .mk _ _ _ _ _ o _ => o

def RawItem.offChild : RawItem → Option Page
  | .mk _ _ _ _ _ _ c => c

def ColIndx.off : ColIndx → WTOff
  | .mk o _ => o

def ColIndx.child : ColIndx → Page
  | .mk _ c => c

def RowIndx.key : RowIndx → KeyMat
  | .mk k _ _ => k

def RowIndx.off : RowIndx → Option WTOff
  | .mk _ o _ => o

def RowIndx.child : RowIndx → Option Page
  | .mk _ _ c => c

/-- The DB handle: configuration and collation functions used by the
verifier.  file_size models idb->fh->file_size. -/
structure DB where
  allocsize : Nat
  fixed_len : Nat
  file_size : Nat
  intlmin : Nat
  intlmax : Nat
  leafmin : Nat
  leafmax : Nat
  btree_compare : Bytes → Bytes → Int
  btree_compare_dup : Bytes → Bytes → Int
  huffman_key : Option (Bytes → Bytes)
  huffman_data : Option (Bytes → Bytes)

/-- WT_OFF_TO_ADDR: byte offset to fragment address. -/
def WT_OFF_TO_ADDR (db : DB) (n : Nat) : Nat := n / db.allocsize

/-- WT_ADDR_TO_OFF: fragment address to byte offset. -/
def WT_ADDR_TO_OFF (db : DB) (a : Nat) : Nat := a * db.allocsize

/-- Modelled from the spec: WT_HDR_BYTES_TO_ALLOC, the allocated byte
extent of a page holding n data bytes (header added, rounded up to the
allocation size). -/
def WT_HDR_BYTES_TO_ALLOC (db : DB) (n : Nat) : Nat :=
  ((n + WT_PAGE_HDR_SIZE + db.allocsize - 1) / db.allocsize) * db.allocsize

/-! ### The fragment map (__wt_bt_verify_addfrag, __wt_bt_verify_checkfrag)

The bitstring is a List Bool whose length is the total fragment count.
bit_test reads a bit (false when out of range), bit_nset sets an
inclusive range, bit_ffc finds the first clear bit. -/

def bit_test (bits : List Bool) (i : Nat) : Bool := bits.getD i false

def bit_set (bits : List Bool) (i : Nat) : List Bool := bits.set i true

def bit_nset (bits : List Bool) (start stop : Nat) : List Bool :=
  (List.range (stop + 1 - start)).foldl (fun b k => b.set (start + k) true) bits

/-- The test loop of __wt_bt_verify_addfrag: scan frags bits starting at
addr, true when some bit is already set. -/
def addfragAnySet (bits : List Bool) (addr : Nat) : Nat → Bool
  | 0 => false
  | i + 1 => addfragAnySet bits addr i || bit_test bits (addr + i)

/-- __wt_bt_verify_addfrag: test every bit of the page range, then set
the range.  Returns the diagnostic (if the page overlaps an already
verified fragment) together with the resulting bit list. -/
def bt_verify_addfrag (db : DB) (page : Page) (bits : List Bool) :
    Option Diag × List Bool :=
  let addr := page.addr
  let frags := WT_OFF_TO_ADDR db page.size
  if addfragAnySet bits addr frags then
    (some (.alreadyVerified addr), bits)
  else
    (none, bit_nset bits addr (addr + (frags - 1)))

/-- bit_ffc: index of the first clear bit, none when all bits are set. -/
def bit_ffc : List Bool → Option Nat
  | [] => none
  | false :: _ => some 0
  | true :: rest => (bit_ffc rest).map (· + 1)

/-- The report emitted for one run of never-verified fragments. -/
def runReport (s e : Int) : Diag :=
  if s = e then .fragNeverVerified s else .fragsNeverVerified s e

/-- The scan loop of __wt_bt_verify_checkfrag.  ffc_start / ffc_end are
the C int variables with -1 as the no-pending-run sentinel.  The fuel
argument only bounds the iteration count; the wrapper passes enough
fuel for every clear bit plus the final pass. -/
def checkfragLoop :
    Nat → List Bool → Int → Int → List Diag → Int → List Diag × Int
  | 0, _, _, _, diags, r => (diags, r)
  | fuel + 1, bits, s, e, diags, r =>
    match bit_ffc bits with
    | some ffc =>
      let bits2 := bit_set bits ffc
      if s = -1 then checkfragLoop fuel bits2 (Int.ofNat ffc) (Int.ofNat ffc) diags r
      else if e = Int.ofNat ffc - 1 then checkfragLoop fuel bits2 s (Int.ofNat ffc) diags r
      else checkfragLoop fuel bits2 (Int.ofNat ffc) (Int.ofNat ffc)
             (diags ++ [runReport s e]) WT_ERROR
    | none =>
      if s ≠ -1 then (diags ++ [runReport s e], WT_ERROR) else (diags, r)

/-- __wt_bt_verify_checkfrag: report every run of clear bits, returning
the diagnostics in order and the final return code. -/
def bt_verify_checkfrag (bits : List Bool) : List Diag × Int :=
  checkfragLoop (bits.count false + 1) bits (-1) (-1) [] 0

/-! ### The key comparator (__wt_bt_verify_cmp)

The comparator is embedded together with an explicit account of the
resources it holds: scratchHeld counts scratch buffers obtained from
__wt_scr_alloc and not yet released through __wt_scr_release, ovflHeld
counts overflow pages pinned by __wt_bt_item_process and not yet
released through __wt_bt_page_out.  Scratch allocation itself is
modelled as infallible. -/

structure CmpRes where
  ret : Int
  diag : Option Diag
  scratchHeld : Nat
  ovflHeld : Nat
deriving DecidableEq, Repr

/-- Collation selection of __wt_bt_verify_cmp and
__wt_bt_verify_page_item: duplicate collation for DUP pages, primary
collation for ROW pages, none otherwise. -/
def funcOf (db : DB) : PageType → Option (Bytes → Bytes → Int)
  | .dupInt => some db.btree_compare_dup
  | .dupLeaf => some db.btree_compare_dup
  | .rowInt => some db.btree_compare
  | .rowLeaf => some db.btree_compare
  | _ => none

/-- The tail of __wt_bt_verify_cmp: the comparison and the err label.
cmp is func(db, cd_ref, pd_ref); both diagnostics paths set
ret = WT_ERROR; the err label releases everything still held. -/
def cmpFinish (childAddr : Nat) (first_entry : Bool) (cmp : Int) : CmpRes :=
  if first_entry ∧ cmp < 0 then
    { ret := WT_ERROR, diag := some (.firstKeySortsBefore childAddr),
      scratchHeld := 0, ovflHeld := 0 }
  else if ¬first_entry ∧ cmp ≥ 0 then
    { ret := WT_ERROR, diag := some (.lastKeySortsAfter childAddr),
      scratchHeld := 0, ovflHeld := 0 }
  else
    { ret := 0, diag := none, scratchHeld := 0, ovflHeld := 0 }

/-- The parent half of __wt_bt_verify_cmp.  scr1 and ovl1 are the
resources already held for the child key.  When the parent key needs
processing, a second scratch buffer is allocated and the item processor
runs; note the source uses WT_RET (not WT_ERR) on that call, so a
processing failure returns immediately without passing through the
err label. -/
def cmpParentStep (func : Bytes → Bytes → Int) (parentKey : KeyMat)
    (childAddr : Nat) (first_entry : Bool) (cd_ref : Bytes)
    (scr1 ovl1 : Nat) : CmpRes :=
  if parentKey.process then
    match parentKey.proc with
    | .error code =>
      { ret := code, diag := none, scratchHeld := scr1 + 1, ovflHeld := ovl1 }
    | .ok out =>
      let pd_ref := match out.ovfl with
        | some v => v.dataBytes
        | none => out.scratch
      cmpFinish childAddr first_entry (func cd_ref pd_ref)
  else
    cmpFinish childAddr first_entry (func cd_ref parentKey.bytes)

/-- __wt_bt_verify_cmp: compare the key on a parent page against the
first or last entry on a child page. -/
def bt_verify_cmp (db : DB) (parent_rip : RowIndx) (child : Page)
    (first_entry : Bool) : CmpRes :=
  match funcOf db child.hdr.ptype with
  | none =>
    { ret := WT_ERROR, diag := some .illegalFormat, scratchHeld := 0, ovflHeld := 0 }
  | some func =>
    match (if first_entry then child.irow.head? else child.irow.getLast?) with
    | none =>
      { ret := WT_ERROR, diag := some (.badIndex child.addr),
        scratchHeld := 0, ovflHeld := 0 }
    | some crip =>
      let ck := crip.key
      if ck.process then
        match ck.proc with
        | .error code =>
          { ret := code, diag := none, scratchHeld := 0, ovflHeld := 0 }
        | .ok out =>
          let cd_ref := match out.ovfl with
            | some v => v.dataBytes
            | none => out.scratch
          cmpParentStep func parent_rip.key child.addr first_entry cd_ref
            1 (if out.ovfl.isSome then 1 else 0)
      else
        cmpParentStep func parent_rip.key child.addr first_entry ck.bytes 0 0

/-- The bytes a KeyMat materializes to, when materialization succeeds. -/
def keyMatBytes (k : KeyMat) : Option Bytes :=
  if k.process then
    match k.proc with
    | .error _ => none
    | .ok out =>
      some (match out.ovfl with | some v => v.dataBytes | none => out.scratch)
  else some k.bytes

/-! ### Per-kind page body checks -/

/-- Descriptor-page check failures, one constructor per message of
__wt_bt_verify_page_desc. -/
inductive DescErr where
  | magic
  | majorv
  | minorv
  | intlmin
  | intlmax
  | leafmin
  | leafmax
  | recnoOffset
  | badFlags
  | repeatNoFixed
  | unusedNotClear
deriving DecidableEq, Repr

/-- __wt_bt_verify_page_desc: every check runs and each failure emits
its diagnostic; the function fails when the list is nonempty.  The
unused-region scan in the source never advances its byte pointer, so
only the first byte of each region is examined; the model reproduces
that. -/
def descErrs (db : DB) (d : DescRec) : List DescErr :=
  (if d.magic ≠ WT_BTREE_MAGIC then [DescErr.magic] else []) ++
  (if d.majorv ≠ WT_BTREE_MAJOR_VERSION then [DescErr.majorv] else []) ++
  (if d.minorv ≠ WT_BTREE_MINOR_VERSION then [DescErr.minorv] else []) ++
  (if d.intlmin ≠ db.intlmin then [DescErr.intlmin] else []) ++
  (if d.intlmax ≠ db.intlmax then [DescErr.intlmax] else []) ++
  (if d.leafmin ≠ db.leafmin then [DescErr.leafmin] else []) ++
  (if d.leafmax ≠ db.leafmax then [DescErr.leafmax] else []) ++
  (if d.recno_offset ≠ 0 then [DescErr.recnoOffset] else []) ++
  (if d.flags / (WT_PAGE_DESC_MASK + 1) ≠ 0 then [DescErr.badFlags] else []) ++
  (if d.fixed_len = 0 ∧ d.flags % 2 = 1 then [DescErr.repeatNoFixed] else []) ++
  (if d.unused1.headD 0 ≠ 0 ∨ d.unused2.headD 0 ≠ 0 then [DescErr.unusedNotClear] else [])

/-- WT_FIX_DELETE_ISSET, modelled from the spec: the first byte of the
entry is the deletion marker. -/
def WT_FIX_DELETE_ISSET (data : Bytes) : Bool :=
  data.headD 0 == WT_FIX_DELETE_BYTE

/-- The deleted-entry scan shared by COL_FIX and COL_RCC: a deleted
entry whose bytes 1 .. fixed_len-1 are not all nul is malformed. -/
def fixDeleteBad (db : DB) (data : Bytes) : Bool :=
  WT_FIX_DELETE_ISSET data &&
    ((data.drop 1).take (db.fixed_len - 1)).any (fun b => b != 0)

/-- The entry walk of __wt_bt_verify_page_col_fix.  The countdown is
hdr.u (the entry count); raw is the page data area; offset is the byte
offset of the current entry from the page start. -/
def colFixLoop (db : DB) (addr size : Nat) (raw : Bytes) :
    Nat → Nat → Nat → Option Diag
  | 0, _, _ => none
  | i + 1, entry_num0, offset =>
    let entry_num := entry_num0 + 1
    if offset + db.fixed_len > size then some (.eop entry_num addr)
    else
      let data := (raw.drop (offset - WT_PAGE_HDR_SIZE)).take db.fixed_len
      if fixDeleteBad db data then some (.delfmt entry_num addr)
      else colFixLoop db addr size raw i entry_num (offset + db.fixed_len)

/-- WT_RCC_REPEAT_COUNT: the leading 16-bit repeat count of an RCC
entry (little-endian bytes). -/
def WT_RCC_REPEAT_COUNT (entry : Bytes) : Nat :=
  entry.headD 0 + 256 * entry.getD 1 0

/-- WT_RCC_REPEAT_DATA: the fixed-length payload after the count. -/
def WT_RCC_REPEAT_DATA (db : DB) (entry : Bytes) : Bytes :=
  (entry.drop 2).take db.fixed_len

/-- The entry walk of __wt_bt_verify_page_col_rcc.  last_data carries
the previous entry (count and payload bytes) for the
missed-compression check. -/
def colRccLoop (db : DB) (addr size : Nat) (raw : Bytes) :
    Nat → Nat → Nat → Option Bytes → Option Diag
  | 0, _, _, _ => none
  | i + 1, entry_num0, offset, last_data =>
    let entry_num := entry_num0 + 1
    let len := db.fixed_len + 2
    if offset + len > size then some (.eop entry_num addr)
    else
      let entry := (raw.drop (offset - WT_PAGE_HDR_SIZE)).take len
      if WT_RCC_REPEAT_COUNT entry = 0 then some (.rccCountZero entry_num addr)
      else if fixDeleteBad db (WT_RCC_REPEAT_DATA db entry) then
        some (.delfmt entry_num addr)
      else
        let identical := match last_data with
          | some prev =>
            WT_RCC_REPEAT_DATA db prev == WT_RCC_REPEAT_DATA db entry &&
              decide (WT_RCC_REPEAT_COUNT prev < UINT16_MAX)
          | none => false
        if identical then some (.rccIdentical entry_num (entry_num - 1) addr)
        else colRccLoop db addr size raw i entry_num (offset + len) (some entry)

/-- The entry walk of __wt_bt_verify_page_col_int: each WT_OFF must lie
on the page and reference fragments inside the file. -/
def colIntLoop (db : DB) (addr size : Nat) :
    List WTOff → Nat → Nat → Option Diag
  | [], _, _ => none
  | off :: rest, entry_num0, offset =>
    let entry_num := entry_num0 + 1
    if offset + WT_OFF_SIZE > size then some (.eop entry_num addr)
    else if WT_ADDR_TO_OFF db off.addr + off.size > db.file_size then
      some (.eof entry_num addr)
    else colIntLoop db addr size rest entry_num (offset + WT_OFF_SIZE)

/-- __wt_bt_verify_page_ovfl: nonempty payload, nul trailing bytes. -/
def bt_verify_page_ovfl (page : Page) (raw : Bytes) : Option Diag :=
  let datalen := page.hdr.u
  if datalen = 0 then some (.ovflNoData page.addr)
  else if (raw.drop datalen).any (fun b => b != 0) then
    some (.ovflTrailing page.addr)
  else none

/-- The level-check switch of __wt_bt_verify_page. -/
def levelCheckOk : PageType → Nat → Bool
  | .descript, l => l == WT_NOLEVEL
  | .colFix, l => l == WT_LLEAF
  | .colRcc, l => l == WT_LLEAF
  | .colVar, l => l == WT_LLEAF
  | .dupLeaf, l => l == WT_LLEAF
  | .ovfl, l => l == WT_LLEAF
  | .rowLeaf, l => l == WT_LLEAF
  | .colInt, l => decide (WT_LLEAF < l)
  | .dupInt, l => decide (WT_LLEAF < l)
  | .rowInt, l => decide (WT_LLEAF < l)
  | .invalid, _ => false

/-! ### The item walk (__wt_bt_verify_page_item) -/

/-- The item-type / page-type compatibility table. -/
def itemCompat : ItemType → PageType → Bool
  | .key, pt => pt == .rowInt || pt == .rowLeaf
  | .keyOvfl, pt => pt == .rowInt || pt == .rowLeaf
  | .keyDup, pt => pt == .dupInt
  | .keyDupOvfl, pt => pt == .dupInt
  | .data, pt => pt == .colVar || pt == .rowLeaf
  | .dataOvfl, pt => pt == .colVar || pt == .rowLeaf
  | .dataDup, pt => pt == .dupLeaf || pt == .rowLeaf
  | .dataDupOvfl, pt => pt == .dupLeaf || pt == .rowLeaf
  | .del, pt => pt == .colVar
  | .off, pt => pt == .dupInt || pt == .rowInt || pt == .rowLeaf

/-- The item-length check: overflow references, off-page references and
deleted items have fixed lengths. -/
def itemLenOk : ItemType → Nat → Bool
  | .key, _ => true
  | .keyDup, _ => true
  | .data, _ => true
  | .dataDup, _ => true
  | .keyOvfl, len => len == WT_OVFL_SIZE
  | .keyDupOvfl, len => len == WT_OVFL_SIZE
  | .dataOvfl, len => len == WT_OVFL_SIZE
  | .dataDupOvfl, len => len == WT_OVFL_SIZE
  | .del, len => len == 0
  | .off, len => len == WT_OFF_SIZE

/-- Item types whose sort order is checked against the previous key
item. -/
def sortClassKey : ItemType → Bool
  | .key => true
  | .keyDup => true
  | .keyOvfl => true
  | _ => false

/-- Item types whose sort order is checked against the previous
duplicate-data item. -/
def sortClassDup : ItemType → Bool
  | .dataDup => true
  | .dataDupOvfl => true
  | _ => false

/-- Item types that skip the sort check entirely (goto offpagedups). -/
def sortExempt : ItemType → Bool
  | .data => true
  | .dataOvfl => true
  | .del => true
  | .off => true
  | _ => false

/-- The data area of an overflow page. -/
def Page.ovflBytes : Page → Bytes
  | p => match p.body with
    | .ovflData raw => raw
    | _ => []

/-- The bytes the item walk takes as the item to compare, before
Huffman decoding: the on-page payload for plain items, the pinned
overflow page bytes (sized by the reference) for overflow items. -/
def itemRawContent (it : RawItem) : Bytes :=
  match it.itype with
  | .key => it.bytes.take it.len
  | .keyDup => it.bytes.take it.len
  | .dataDup => it.bytes.take it.len
  | .keyOvfl =>
    (match it.ovpage with | some op => op.ovflBytes | none => []).take
      (match it.ovref with | some r => r.size | none => 0)
  | .keyDupOvfl =>
    (match it.ovpage with | some op => op.ovflBytes | none => []).take
      (match it.ovref with | some r => r.size | none => 0)
  | .dataDupOvfl =>
    (match it.ovpage with | some op => op.ovflBytes | none => []).take
      (match it.ovref with | some r => r.size | none => 0)
  | _ => []

/-- The item bytes after the Huffman-decode switch: KEY and KEY_OVFL
decode through huffman_key, KEY_DUP / DATA_DUP / DATA_DUP_OVFL through
huffman_data; other types (KEY_DUP_OVFL among them) are not decoded. -/
def itemSortBytes (db : DB) (it : RawItem) : Bytes :=
  match it.itype with
  | .key =>
    match db.huffman_key with
    | some dec => dec (itemRawContent it)
    | none => itemRawContent it
  | .keyOvfl =>
    match db.huffman_key with
    | some dec => dec (itemRawContent it)
    | none => itemRawContent it
  | .keyDup =>
    match db.huffman_data with
    | some dec => dec (itemRawContent it)
    | none => itemRawContent it
  | .dataDup =>
    match db.huffman_data with
    | some dec => dec (itemRawContent it)
    | none => itemRawContent it
  | .dataDupOvfl =>
    match db.huffman_data with
    | some dec => dec (itemRawContent it)
    | none => itemRawContent it
  | _ => itemRawContent it

/-- The end-of-file checks on overflow and off-page references. -/
def itemExtentCheck (db : DB) (item_num addr : Nat) (it : RawItem) :
    Option Diag :=
  match it.itype with
  | .keyOvfl | .keyDupOvfl | .dataOvfl | .dataDupOvfl =>
    match it.ovref with
    | none => some (.bodyShape addr)
    | some ref =>
      if WT_ADDR_TO_OFF db ref.addr + WT_HDR_BYTES_TO_ALLOC db ref.size >
          db.file_size then some (.eof item_num addr)
      else none
  | .off =>
    match it.ioff with
    | none => some (.bodyShape addr)
    | some o =>
      if WT_ADDR_TO_OFF db o.addr + o.size > db.file_size then
        some (.eof item_num addr)
      else none
  | _ => none

/-- The sort-order section of the item walk: exempt types skip, key and
duplicate-data classes compare against their previous item and become
the new previous item, KEY_DUP_OVFL is materialized but neither
compared nor retained. -/
def itemSortStep (db : DB) (funcOpt : Option (Bytes → Bytes → Int))
    (addr item_num : Nat) (it : RawItem)
    (lastKey lastData : Option (Nat × Bytes)) :
    Except Diag (Option (Nat × Bytes) × Option (Nat × Bytes)) :=
  if sortExempt it.itype then .ok (lastKey, lastData)
  else
    let content := itemSortBytes db it
    if sortClassKey it.itype then
      match funcOpt with
      | none => .error (.bodyShape addr)
      | some f =>
        match lastKey with
        | some (j, bk) =>
          if f bk content ≥ 0 then .error (.incorrectSorted j item_num addr)
          else .ok (some (item_num, content), lastData)
        | none => .ok (some (item_num, content), lastData)
    else if sortClassDup it.itype then
      match funcOpt with
      | none => .error (.bodyShape addr)
      | some f =>
        match lastData with
        | some (j, bk) =>
          if f bk content ≥ 0 then .error (.incorrectSorted j item_num addr)
          else .ok (lastKey, some (item_num, content))
        | none => .ok (lastKey, some (item_num, content))
    else .ok (lastKey, lastData)

/-! ### The fuel-indexed verifier family -/

/-- Mutable verifier state: the fragment bit list, the saved previous
leaf page, the progress counter. -/
structure VState where
  bits : List Bool
  leaf : Option Page
  fcnt : Nat

/-- One tier of the verifier family: the tree walker and the page
verifier at a given remaining recursion depth. -/
structure Fns where
  tree : DB → Option RowIndx → Nat → Nat → WTOff → Page → VState →
    Except Diag VState
  page : DB → Page → VState → Except Diag VState

/-- The overflow-page verification performed while walking items: pin
the overflow page, verify it as a page, and require the reference size
to equal the overflow page's datalen. -/
def itemOvflVerify (fns : Fns) (db : DB) (item_num addr : Nat)
    (it : RawItem) (st : VState) : Except Diag VState :=
  match it.itype with
  | .keyOvfl | .keyDupOvfl | .dataOvfl | .dataDupOvfl =>
    match it.ovref, it.ovpage with
    | some ref, some op =>
      match fns.page db op st with
      | .error d => .error d
      | .ok st2 =>
        if ref.size ≠ op.hdr.u then .error (.ovflSizeMismatch item_num addr)
        else .ok st2
    | _, _ => .error (.bodyShape addr)
  | _ => .ok st

/-- The offpagedups tail of the item walk: on a ROW_LEAF page, an OFF
item roots an off-page duplicate tree, walked from scratch. -/
def itemOffpageDups (fns : Fns) (db : DB) (ptype : PageType) (addr : Nat)
    (it : RawItem) (st : VState) : Except Diag VState :=
  if ptype = .rowLeaf ∧ it.itype = .off then
    match it.ioff, it.offChild with
    | some o, some c => fns.tree db none 0 WT_NOLEVEL o c st
    | _, _ => .error (.bodyShape addr)
  else .ok st

/-- The item walk of __wt_bt_verify_page_item: for each item in order,
bounds checks, the type/page compatibility check, the length check,
the end-of-file checks, overflow verification, the sort-order check
and the off-page duplicate walk. -/
def itemsLoop (fns : Fns) (db : DB) (ptype : PageType) (addr size : Nat)
    (funcOpt : Option (Bytes → Bytes → Int)) :
    List RawItem → Nat → Nat → Option (Nat × Bytes) → Option (Nat × Bytes) →
    VState → Except Diag VState
  | [], _, _, _, _, st => .ok st
  | it :: rest, n, offset, lastKey, lastData, st =>
    let item_num := n + 1
    if offset + WT_ITEM_SIZE > size then .error (.eop item_num addr)
    else if ¬ itemCompat it.itype ptype then .error (.itemVsPage item_num addr)
    else if ¬ itemLenOk it.itype it.len then .error (.itemLen item_num addr)
    else if offset + WT_ITEM_SIZE + it.len > size then .error (.eop item_num addr)
    else
      match itemExtentCheck db item_num addr it with
      | some d => .error d
      | none =>
        match itemOvflVerify fns db item_num addr it st with
        | .error d => .error d
        | .ok st2 =>
          match itemSortStep db funcOpt addr item_num it lastKey lastData with
          | .error d => .error d
          | .ok (lk, ld) =>
            match itemOffpageDups fns db ptype addr it st2 with
            | .error d => .error d
            | .ok st3 =>
              itemsLoop fns db ptype addr size funcOpt rest item_num
                (offset + WT_ITEM_SIZE + it.len) lk ld st3

/-- __wt_bt_verify_page: progress accounting, fragment registration,
header checks (lsn, type, level, unused) and the per-kind body check. -/
def pageStep (fns : Fns) (db : DB) (page : Page) (st : VState) :
    Except Diag VState :=
  let hdr := page.hdr
  let addr := page.addr
  let st1 : VState := { st with fcnt := st.fcnt + 1 }
  match bt_verify_addfrag db page st1.bits with
  | (some d, _) => .error d
  | (none, bits2) =>
    let st2 : VState := { st1 with bits := bits2 }
    if hdr.lsn0 ≠ 0 ∨ hdr.lsn1 ≠ 0 then .error (.lsnNonzero addr)
    else if hdr.ptype = .invalid then .error (.invalidType addr)
    else if ¬ levelCheckOk hdr.ptype hdr.level then
      .error (.badLevel hdr.ptype addr hdr.level)
    else if hdr.unused0 ≠ 0 ∨ hdr.unused1 ≠ 0 then .error (.unusedNonzero addr)
    else
      match hdr.ptype, page.body with
      | .descript, .desc d =>
        match descErrs db d with
        | [] => .ok st2
        | _ => .error (.descFail addr)
      | .colVar, .items its => itemsLoop fns db hdr.ptype addr page.size
          (funcOf db hdr.ptype) its 0 WT_PAGE_HDR_SIZE none none st2
      | .dupInt, .items its => itemsLoop fns db hdr.ptype addr page.size
          (funcOf db hdr.ptype) its 0 WT_PAGE_HDR_SIZE none none st2
      | .dupLeaf, .items its => itemsLoop fns db hdr.ptype addr page.size
          (funcOf db hdr.ptype) its 0 WT_PAGE_HDR_SIZE none none st2
      | .rowInt, .items its => itemsLoop fns db hdr.ptype addr page.size
          (funcOf db hdr.ptype) its 0 WT_PAGE_HDR_SIZE none none st2
      | .rowLeaf, .items its => itemsLoop fns db hdr.ptype addr page.size
          (funcOf db hdr.ptype) its 0 WT_PAGE_HDR_SIZE none none st2
      | .colInt, .colInt offs =>
        match colIntLoop db addr page.size offs 0 WT_PAGE_HDR_SIZE with
        | some d => .error d
        | none => .ok st2
      | .colFix, .colFix raw =>
        match colFixLoop db addr page.size raw hdr.u 0 WT_PAGE_HDR_SIZE with
        | some d => .error d
        | none => .ok st2
      | .colRcc, .colRcc raw =>
        match colRccLoop db addr page.size raw hdr.u 0 WT_PAGE_HDR_SIZE none with
        | some d => .error d
        | none => .ok st2
      | .ovfl, .ovflData raw =>
        match bt_verify_page_ovfl page raw with
        | some d => .error d
        | none => .ok st2
      | _, _ => .error (.bodyShape addr)

/-- The child loop for COL_INT pages: recurse into each subtree,
advancing the running record number by the child reference's record
count after each descent. -/
def colKidsLoop (fns : Fns) (db : DB) (lvl : Nat) :
    List ColIndx → Nat → VState → Except Diag VState
  | [], _, st => .ok st
  | e :: rest, start_recno, st =>
    match fns.tree db none start_recno lvl e.off e.child st with
    | .error d => .error d
    | .ok st2 => colKidsLoop fns db lvl rest (start_recno + e.off.records) st2

/-- The child loop for ROW_INT / DUP_INT pages: before each descent, if
a previous leaf is saved, compare its last entry against the current
parent key and release it; then recurse with the current entry as the
child's parent reference. -/
def rowKidsLoop (fns : Fns) (db : DB) (lvl : Nat) :
    List RowIndx → VState → Except Diag VState
  | [], st => .ok st
  | rip :: rest, st =>
    match st.leaf with
    | some l =>
      let r := bt_verify_cmp db rip l false
      if r.ret ≠ 0 then .error (r.diag.getD (.externalFail r.ret))
      else
        match rip.off, rip.child with
        | some off, some child =>
          match fns.tree db (some rip) 0 lvl off child { st with leaf := none } with
          | .error d => .error d
          | .ok st3 => rowKidsLoop fns db lvl rest st3
        | _, _ => .error (.badIndex 0)
    | none =>
      match rip.off, rip.child with
      | some off, some child =>
        match fns.tree db (some rip) 0 lvl off child st with
        | .error d => .error d
        | .ok st3 => rowKidsLoop fns db lvl rest st3
      | _, _ => .error (.badIndex 0)

/-- __wt_bt_verify_tree: verify the page, check level and record count
against the parent reference (non-root), check the starting record
number (column pages) or that it is zero plus the parent-key boundary
comparison (row and duplicate pages), then save leaves or recurse into
the children.  The err label of the source releases the saved leaf on
exit from an internal page, so internal success clears it. -/
def treeBody (fns : Fns) (db : DB) (parent_rip : Option RowIndx)
    (start_recno : Nat) (level : Nat) (off : WTOff) (page : Page)
    (st : VState) : Except Diag VState :=
  let is_root := level = WT_NOLEVEL
  match fns.page db page st with
  | .error d => .error d
  | .ok st1 =>
    let hdr := page.hdr
    if ¬ is_root ∧ hdr.level ≠ level then
      .error (.treeLevelMismatch off.addr hdr.level level)
    else if ¬ is_root ∧ page.records ≠ off.records then
      .error (.recordCountMismatch off.addr page.records off.records)
    else
      let level2 := if is_root then hdr.level else level
      let colCase := hdr.ptype = .colFix ∨ hdr.ptype = .colInt ∨
        hdr.ptype = .colRcc ∨ hdr.ptype = .colVar
      let rowCase := hdr.ptype = .dupInt ∨ hdr.ptype = .dupLeaf ∨
        hdr.ptype = .rowInt ∨ hdr.ptype = .rowLeaf
      let sr := if is_root then 1 else start_recno
      if colCase ∧ hdr.start_recno ≠ sr then
        .error (.startingRecord off.addr hdr.start_recno sr)
      else if rowCase ∧ hdr.start_recno ≠ 0 then
        .error (.startRecnoNonzero off.addr hdr.start_recno)
      else
        let afterCmp : Except Diag Unit :=
          if rowCase ∧ ¬ is_root then
            match parent_rip with
            | none => .error (.badIndex off.addr)
            | some rip =>
              let r := bt_verify_cmp db rip page true
              if r.ret ≠ 0 then .error (r.diag.getD (.externalFail r.ret))
              else .ok ()
          else .ok ()
        match afterCmp with
        | .error d => .error d
        | .ok _ =>
          match hdr.ptype with
          | .colFix => .ok st1
          | .colRcc => .ok st1
          | .colVar => .ok st1
          | .dupLeaf => .ok { st1 with leaf := some page }
          | .rowLeaf => .ok { st1 with leaf := some page }
          | .colInt =>
            match colKidsLoop fns db (level2 - 1) page.icol hdr.start_recno st1 with
            | .error d => .error d
            | .ok st2 => .ok { st2 with leaf := none }
          | .dupInt =>
            match rowKidsLoop fns db (level2 - 1) page.irow st1 with
            | .error d => .error d
            | .ok st2 => .ok { st2 with leaf := none }
          | .rowInt =>
            match rowKidsLoop fns db (level2 - 1) page.irow st1 with
            | .error d => .error d
            | .ok st2 => .ok { st2 with leaf := none }
          | _ => .error .illegalFormat

/-- The fuel-indexed family: tier n+1 runs the bodies with tier n for
every nested page or subtree; tier 0 reports fuel exhaustion. -/
def verifyFns : Nat → Fns
  | 0 =>
    { tree := fun _ _ _ _ _ _ _ => .error .noFuel,
      page := fun _ _ _ => .error .noFuel }
  | n + 1 =>
    { tree := treeBody (verifyFns n), page := pageStep (verifyFns n) }

/-- __wt_bt_verify_tree at a given recursion depth. -/
def wt_bt_verify_tree (fuel : Nat) : DB → Option RowIndx → Nat → Nat →
    WTOff → Page → VState → Except Diag VState :=
  (verifyFns fuel).tree

/-- __wt_bt_verify_page at a given recursion depth. -/
def wt_bt_verify_page (fuel : Nat) : DB → Page → VState →
    Except Diag VState :=
  (verifyFns fuel).page

/-- The outcome of a whole verification run: the function return value,
the emitted diagnostics, whether the tree walk was reached, and the
final progress count. -/
structure VerifyResult where
  ret : Int
  diags : List Diag
  walked : Bool
  fcnt : Nat
deriving Repr

/-- __wt_bt_verify: compute the fragment count (failing the size guard
leaves ret at its initial 0), allocate the bit list, verify the
descriptor page, walk the tree from the root reference, and check
fragment coverage. -/
def wt_bt_verify (fuel : Nat) (db : DB) (descPage : Page)
    (root_addr root_size : Nat) (rootPage : Page) : VerifyResult :=
  let frags := WT_OFF_TO_ADDR db db.file_size
  if frags > INT_MAX then
    { ret := 0, diags := [.fileTooLarge], walked := false, fcnt := 0 }
  else
    let st0 : VState := { bits := List.replicate frags false, leaf := none, fcnt := 0 }
    match wt_bt_verify_page fuel db descPage st0 with
    | .error d => { ret := WT_ERROR, diags := [d], walked := false, fcnt := 0 }
    | .ok st1 =>
      match wt_bt_verify_tree fuel db none 0 WT_NOLEVEL
          { addr := root_addr, size := root_size, records := 0 } rootPage st1 with
      | .error d => { ret := WT_ERROR, diags := [d], walked := true, fcnt := st1.fcnt }
      | .ok st2 =>
        let p := bt_verify_checkfrag st2.bits
        { ret := p.2, diags := p.1, walked := true, fcnt := st2.fcnt }

/-! ### Concrete fixtures

A small concrete database and pages, used to instantiate the theorems
below at computable inputs. -/

/-- Lexicographic byte comparison, a concrete collation. -/
def natCmp : Bytes → Bytes → Int
  | [], [] => 0
  | [], _ :: _ => -1
  | _ :: _, [] => 1
  | a :: as, b :: bs => if a < b then -1 else if b < a then 1 else natCmp as bs

/-- A concrete database: 512-byte allocation units, a three-fragment
file, one-byte fixed-length records, byte-lexicographic collations, no
Huffman coding. -/
def db0 : DB :=
  { allocsize := 512, fixed_len := 1, file_size := 1536,
    intlmin := 512, intlmax := 512, leafmin := 512, leafmax := 512,
    btree_compare := natCmp, btree_compare_dup := natCmp,
    huffman_key := none, huffman_data := none }

/-- db0 with a 1024-byte (two-fragment) file. -/
def db2 : DB := { db0 with file_size := 1024 }

/-- A database whose file holds 2^31 fragments, one more than INT_MAX
allows. -/
def dbBig : DB := { db0 with file_size := 512 * 2 ^ 31 }

/-- A page header with zero lsn and unused fields. -/
def mkHdr (t : PageType) (lvl sr u : Nat) : PageHdr :=
  { ptype := t, level := lvl, start_recno := sr,
    lsn0 := 0, lsn1 := 0, unused0 := 0, unused1 := 0, u := u }

/-- A key that needs no processing. -/
def plainKey (bs : Bytes) : KeyMat :=
  { bytes := bs, process := false, proc := .ok { ovfl := none, scratch := [] } }

/-- A key whose item processing fails with code 1. -/
def failKey : KeyMat := { bytes := [], process := true, proc := .error 1 }

/-- A key whose processing pins an overflow page. -/
def ovflKey : KeyMat :=
  { bytes := [], process := true,
    proc := .ok { ovfl := some { dataBytes := [5], datalen := 1 }, scratch := [] } }

/-- A trivial descriptor page used where the page content is never
reached. -/
def pageDummy : Page :=
  .mk (mkHdr .descript WT_NOLEVEL 0 0) 0 512 0
    (.desc { magic := WT_BTREE_MAGIC, majorv := WT_BTREE_MAJOR_VERSION,
             minorv := WT_BTREE_MINOR_VERSION, intlmin := 512, intlmax := 512,
             leafmin := 512, leafmax := 512, recno_offset := 0, fixed_len := 1,
             flags := 0, unused1 := [0], unused2 := [0] })
    [] []

/-- A row-leaf page whose single index entry is the overflow-processed
key, the child side of the comparator leak scenario. -/
def pageCmpChild : Page :=
  .mk (mkHdr .rowLeaf WT_LLEAF 0 0) 1 512 1
    (.items []) [] [.mk ovflKey none none]

/-- The parent index entry whose key processing fails. -/
def ripFail : RowIndx := .mk failKey none none

/-- A row-leaf key/data page: keys [10] and [20] with one-byte data
items, laid out from the page-header boundary. -/
def pageRowLeaf : Page :=
  .mk (mkHdr .rowLeaf WT_LLEAF 0 4) 1 512 1
    (.items
      [ .mk .key 1 [10] none none none none,
        .mk .data 1 [99] none none none none,
        .mk .key 1 [20] none none none none,
        .mk .data 1 [98] none none none none ])
    [] [.mk (plainKey [10]) none none, .mk (plainKey [20]) none none]

/-- The parent reference to pageRowLeaf. -/
def offLeaf : WTOff := { addr := 1, size := 512, records := 1 }

/-- A row-internal root: one key item and one off item, referencing
pageRowLeaf. -/
def pageRowRoot : Page :=
  .mk (mkHdr .rowInt 2 0 2) 0 512 1
    (.items
      [ .mk .key 1 [10] none none none none,
        .mk .off WT_OFF_SIZE [] none none (some offLeaf) none ])
    [] [.mk (plainKey [10]) (some offLeaf) (some pageRowLeaf)]

/-- A column fixed-length leaf: one entry holding byte 7. -/
def pageColLeaf : Page :=
  .mk (mkHdr .colFix WT_LLEAF 1 1) 1 512 1 (.colFix [7]) [] []

/-- The parent reference to pageColLeaf. -/
def offColLeaf : WTOff := { addr := 1, size := 512, records := 1 }

/-- A column-internal root holding one off entry for pageColLeaf. -/
def pageColRoot : Page :=
  .mk (mkHdr .colInt 2 1 1) 0 512 1
    (.colInt [offColLeaf]) [.mk offColLeaf pageColLeaf] []

/-- The initial verifier state over a file of n fragments. -/
def vstate0 (n : Nat) : VState :=
  { bits := List.replicate n false, leaf := none, fcnt := 0 }

/-- Whether a verification step succeeded. -/
def exOk : Except Diag VState → Bool
  | .ok _ => true
  | .error _ => false

/-! ### Walk reachability and the cross-page invariants

Definitions used to state claims C6, C7 and C10: which pages the tree
walker visits below a page, and the per-edge facts its checks
establish. -/

/-- Column-store page types. -/
def isColType : PageType → Bool
  | .colFix => true
  | .colInt => true
  | .colRcc => true
  | .colVar => true
  | _ => false

/-- Row-store and duplicate page types. -/
def isRowDupType : PageType → Bool
  | .dupInt => true
  | .dupLeaf => true
  | .rowInt => true
  | .rowLeaf => true
  | _ => false

/-- Sum of the record counts of the first k column index entries. -/
def sumRecTake (l : List ColIndx) (k : Nat) : Nat :=
  ((l.take k).map (fun e => e.off.records)).sum

/-- The claim-side statement of the page-level / page-kind agreement:
NOLEVEL for the descriptor page, the LEAF sentinel for the leaf-shaped
kinds, strictly above LEAF for the internal kinds. -/
def levelMatch (t : PageType) (l : Nat) : Prop :=
  (t = .descript → l = WT_NOLEVEL) ∧
  ((t = .colFix ∨ t = .colRcc ∨ t = .colVar ∨ t = .dupLeaf ∨
    t = .ovfl ∨ t = .rowLeaf) → l = WT_LLEAF) ∧
  ((t = .colInt ∨ t = .dupInt ∨ t = .rowInt) → WT_LLEAF < l)

/-- One walk-descent edge: a column child, a row/duplicate child, or an
off-page duplicate root hanging off a row leaf. -/
def WalkStep (p c : Page) : Prop :=
  (p.hdr.ptype = .colInt ∧ ∃ k e, p.icol.get? k = some e ∧ c = e.child) ∨
  ((p.hdr.ptype = .dupInt ∨ p.hdr.ptype = .rowInt) ∧
    ∃ k e, p.irow.get? k = some e ∧ e.child = some c) ∨
  (p.hdr.ptype = .rowLeaf ∧ ∃ its k it, p.body = .items its ∧
    its.get? k = some it ∧ it.itype = .off ∧ it.offChild = some c)

/-- Pages the tree walker visits at or below a page. -/
inductive Reach : Page → Page → Prop where
  | refl (p : Page) : Reach p p
  | colKid (r p : Page) (k : Nat) (e : ColIndx) :
      Reach r p → p.hdr.ptype = .colInt → p.icol.get? k = some e →
      Reach r e.child
  | rowKid (r p : Page) (k : Nat) (e : RowIndx) (c : Page) :
      Reach r p → (p.hdr.ptype = .dupInt ∨ p.hdr.ptype = .rowInt) →
      p.irow.get? k = some e → e.child = some c → Reach r c
  | dupKid (r p : Page) (its : List RawItem) (k : Nat) (it : RawItem) (c : Page) :
      Reach r p → p.hdr.ptype = .rowLeaf → p.body = .items its →
      its.get? k = some it → it.itype = .off → it.offChild = some c →
      Reach r c

/-- The starting-record-number facts at a visited page (claim C6): row
and duplicate pages carry 0; the k-th child of a column internal page,
when itself a column page, carries the parent's start_recno plus the
record counts of the earlier children; a column-typed off-page
duplicate root carries 1. -/
def startRecnoFacts (q : Page) : Prop :=
  (isRowDupType q.hdr.ptype = true → q.hdr.start_recno = 0) ∧
  (q.hdr.ptype = .colInt → ∀ k e, q.icol.get? k = some e →
    isColType e.child.hdr.ptype = true →
    e.child.hdr.start_recno = q.hdr.start_recno + sumRecTake q.icol k) ∧
  (q.hdr.ptype = .rowLeaf → ∀ its k it c, q.body = .items its →
    its.get? k = some it → it.itype = .off → it.offChild = some c →
    isColType c.hdr.ptype = true → c.hdr.start_recno = 1)

/-- The level facts at a visited page (claim C7): every tree child
carries the parent's level minus 1. -/
def levelFacts (q : Page) : Prop :=
  (q.hdr.ptype = .colInt → ∀ k e, q.icol.get? k = some e →
    e.child.hdr.level = q.hdr.level - 1) ∧
  ((q.hdr.ptype = .dupInt ∨ q.hdr.ptype = .rowInt) → ∀ k e c,
    q.irow.get? k = some e → e.child = some c →
    c.hdr.level = q.hdr.level - 1)

/-- The record-count facts at a visited page (claim C10): every tree
child's in-memory record total equals the records field of the parent
reference that leads to it, on column and row/duplicate pages alike. -/
def recordFacts (q : Page) : Prop :=
  (q.hdr.ptype = .colInt → ∀ k e, q.icol.get? k = some e →
    e.child.records = e.off.records) ∧
  ((q.hdr.ptype = .dupInt ∨ q.hdr.ptype = .rowInt) → ∀ k e c o,
    q.irow.get? k = some e → e.child = some c → e.off = some o →
    c.records = o.records)

/-- All per-page walk facts together. -/
def walkFacts (q : Page) : Prop :=
  startRecnoFacts q ∧ levelFacts q ∧ recordFacts q

/-- The facts the walker checks about the page of one call frame
against the frame's own parameters. -/
def treeFrameOk (sr level : Nat) (off : WTOff) (page : Page) : Prop :=
  (level ≠ WT_NOLEVEL → page.hdr.level = level ∧ page.records = off.records) ∧
  (isColType page.hdr.ptype = true →
    page.hdr.start_recno = (if level = WT_NOLEVEL then 1 else sr)) ∧
  (isRowDupType page.hdr.ptype = true → page.hdr.start_recno = 0)

/-- The j-th RCC entry of a data area: count bytes plus payload. -/
def rccEntry (db : DB) (raw : Bytes) (j : Nat) : Bytes :=
  (raw.drop (j * (db.fixed_len + 2))).take (db.fixed_len + 2)

/-- What it means for the j-th RCC entry to pass every check of
__wt_bt_verify_page_col_rcc: it lies on the page, its repeat count is
nonzero, a deleted payload has nul trailing bytes, and it does not
duplicate the previous payload while the previous count is below
UINT16_MAX. -/
def rccEntryOk (db : DB) (size : Nat) (raw : Bytes) (j : Nat) : Prop :=
  WT_PAGE_HDR_SIZE + (j + 1) * (db.fixed_len + 2) ≤ size ∧
  WT_RCC_REPEAT_COUNT (rccEntry db raw j) ≠ 0 ∧
  fixDeleteBad db (WT_RCC_REPEAT_DATA db (rccEntry db raw j)) = false ∧
  (∀ i, j = i + 1 →
    ¬(WT_RCC_REPEAT_DATA db (rccEntry db raw i) =
        WT_RCC_REPEAT_DATA db (rccEntry db raw j) ∧
      WT_RCC_REPEAT_COUNT (rccEntry db raw i) < UINT16_MAX))

/-- The data area of an RCC page with two identical one-byte payloads
whose first repeat count is UINT16_MAX. -/
def rccRawMax : Bytes := [255, 255, 171, 1, 0, 171]

/-- A COL_RCC page holding rccRawMax. -/
def pageRccMax : Page :=
  .mk (mkHdr .colRcc WT_LLEAF 1 2) 1 512 2 (.colRcc rccRawMax) [] []

/-! ### Fragment-coverage notions

Definitions used to state claim C3: the indices of clear bits, their
grouping into maximal runs, the pure rendition of the checkfrag loop
over that index list, fragment-range membership, and sequential
registration of a list of pages. -/

/-- Indices of clear bits, in increasing order. -/
def clearIndices : List Bool → List Nat
  | [] => []
  | false :: rest => 0 :: (clearIndices rest).map (· + 1)
  | true :: rest => (clearIndices rest).map (· + 1)

/-- Group the tail of a strictly ascending index list into maximal runs
of consecutive indices, with (s, e) the run being accumulated. -/
def groupRunsFrom (s e : Nat) : List Nat → List (Nat × Nat)
  | [] => [(s, e)]
  | c :: rest =>
    if c = e + 1 then groupRunsFrom s c rest
    else (s, e) :: groupRunsFrom c c rest

/-- Group a strictly ascending index list into maximal runs of
consecutive indices. -/
def groupRuns : List Nat → List (Nat × Nat)
  | [] => []
  | c :: rest => groupRunsFrom c c rest

/-- The checkfrag scan expressed over the list of clear-bit indices it
visits: the same coalescing state machine as checkfragLoop. -/
def coalesce : List Nat → Int → Int → List Diag → Int → List Diag × Int
  | [], s, e, diags, r =>
    if s ≠ -1 then (diags ++ [runReport s e], WT_ERROR) else (diags, r)
  | c :: rest, s, e, diags, r =>
    if s = -1 then coalesce rest (Int.ofNat c) (Int.ofNat c) diags r
    else if e = Int.ofNat c - 1 then coalesce rest s (Int.ofNat c) diags r
    else coalesce rest (Int.ofNat c) (Int.ofNat c)
      (diags ++ [runReport s e]) WT_ERROR

/-- Fragment i lies in the fragment range page p occupies. -/
def inFrag (db : DB) (p : Page) (i : Nat) : Prop :=
  p.addr ≤ i ∧ i < p.addr + WT_OFF_TO_ADDR db p.size

/-- Register a list of pages one after the other, stopping at the first
failure, as the verifier does while walking. -/
def addfragSeq : DB → List Page → List Bool → Option Diag × List Bool
  | _, [], bits => (none, bits)
  | db, p :: ps, bits =>
    match bt_verify_addfrag db p bits with
    | (some d, b) => (some d, b)
    | (none, b) => addfragSeq db ps b

/-- A page whose range is fragment 2 of the three-fragment db0 file. -/
def pageFragB : Page :=
  .mk (mkHdr .ovfl WT_LLEAF 0 1) 2 512 0 (.ovflData [3]) [] []

/-- The optional previous sort item of the item walk, as a list of its
bytes. -/
def prevList : Option (Nat × Bytes) → List Bytes
  | some (_, b) => [b]
  | none => []

/-- The decoded key-class items of an item list, in page order. -/
def keySeq (db : DB) (its : List RawItem) : List Bytes :=
  (its.filter (fun it => sortClassKey it.itype)).map (itemSortBytes db)

/-- The decoded duplicate-data items of an item list, in page order. -/
def dupSeq (db : DB) (its : List RawItem) : List Bytes :=
  (its.filter (fun it => sortClassDup it.itype)).map (itemSortBytes db)

/-- Strict ascent of consecutive entries under a collation. -/
def ascending (f : Bytes → Bytes → Int) (l : List Bytes) : Prop :=
  List.Chain' (fun a b => f a b < 0) l

/-! ### Theorems -/

/-- C1.  The claim states that when the fragment count exceeds INT_MAX,
verification emits the file-too-large diagnostic and returns a nonzero
ERROR status immediately, without walking the tree.  The code does emit
the diagnostic and does skip the walk, but the guard jumps to the
cleanup label without assigning ret, which still holds its initial 0:
the function returns 0 (success).  At a 2^31-fragment file the embedded
verifier returns ret = 0 with exactly the file-too-large diagnostic and
without reaching the tree walk, contradicting the nonzero-return part
of the claim. -/
theorem c1_file_too_large_returns_zero :
    wt_bt_verify 1 dbBig pageDummy 0 512 pageDummy =
      { ret := 0, diags := [Diag.fileTooLarge], walked := false, fcnt := 0 } ∧
    WT_OFF_TO_ADDR dbBig dbBig.file_size > INT_MAX := by
  exact ⟨rfl, by decide⟩

/-- C2.  The claim states the key comparator releases its scratch
buffers and pinned overflow pages even when processing the parent item
fails.  The source releases resources at its err label, but the parent
item-process call uses WT_RET, which returns immediately on failure
without passing through that label.  In the embedded comparator, with a
child key whose processing pinned an overflow page and a parent key
whose processing fails, the comparator returns with both scratch
buffers and the overflow page still held. -/
theorem c2_cmp_leaks_on_parent_process_failure :
    bt_verify_cmp db0 ripFail pageCmpChild true =
      { ret := 1, diag := none, scratchHeld := 2, ovflHeld := 1 } := rfl

/-- C9: when registering a page's fragments fails because a bit is
already set, the bitmap is returned unchanged — the test loop examines
every bit of the range before any bit is set. -/
theorem c9_addfrag_error_leaves_bits_unchanged (db : DB) (page : Page)
    (bits : List Bool)
    (h : (bt_verify_addfrag db page bits).1.isSome = true) :
    (bt_verify_addfrag db page bits).2 = bits := by
  by_cases hc : addfragAnySet bits page.addr (WT_OFF_TO_ADDR db page.size)
  · simp [bt_verify_addfrag, hc]
  · simp [bt_verify_addfrag, hc] at h

/-- Witness for C9 at a concrete overlapping registration. -/
theorem c9_addfrag_error_leaves_bits_unchanged_witness :
    (bt_verify_addfrag db0 pageRowLeaf [true, true]).2 = [true, true] :=
  c9_addfrag_error_leaves_bits_unchanged db0 pageRowLeaf [true, true] rfl

/-- The RCC entry walk started at entry j0 (with the carried previous
entry) succeeds exactly when every remaining entry passes its four
checks. -/
theorem colRccLoop_none_iff (db : DB) (addr size : Nat) (raw : Bytes) :
    ∀ (n j0 : Nat),
      (colRccLoop db addr size raw n j0
          (WT_PAGE_HDR_SIZE + j0 * (db.fixed_len + 2))
          (if j0 = 0 then none else some (rccEntry db raw (j0 - 1))) = none ↔
        ∀ k, k < n → rccEntryOk db size raw (j0 + k)) := by
  intro n
  induction n with
  | zero =>
    intro j0
    constructor
    · intro _ k hk; omega
    · intro _; rfl
  | succ m ih =>
    intro j0
    have hoff : WT_PAGE_HDR_SIZE + j0 * (db.fixed_len + 2) - WT_PAGE_HDR_SIZE
        = j0 * (db.fixed_len + 2) := by omega
    have hsucc : (j0 + 1) * (db.fixed_len + 2)
        = j0 * (db.fixed_len + 2) + (db.fixed_len + 2) := Nat.succ_mul _ _
    rw [colRccLoop]
    simp only [hoff]
    have hentry : (raw.drop (j0 * (db.fixed_len + 2))).take (db.fixed_len + 2)
        = rccEntry db raw j0 := rfl
    rw [hentry]
    by_cases h1 : WT_PAGE_HDR_SIZE + j0 * (db.fixed_len + 2) +
        (db.fixed_len + 2) > size
    · rw [if_pos h1]
      constructor
      · intro hc; cases hc
      · intro hall
        have h0 := hall 0 (by omega)
        rw [Nat.add_zero] at h0
        have := h0.1
        omega
    · rw [if_neg h1]
      by_cases h2 : WT_RCC_REPEAT_COUNT (rccEntry db raw j0) = 0
      · rw [if_pos h2]
        constructor
        · intro hc; cases hc
        · intro hall
          have h0 := hall 0 (by omega)
          rw [Nat.add_zero] at h0
          exact absurd h2 h0.2.1
      · rw [if_neg h2]
        by_cases h3 : fixDeleteBad db (WT_RCC_REPEAT_DATA db (rccEntry db raw j0)) = true
        · rw [if_pos h3]
          constructor
          · intro hc; cases hc
          · intro hall
            have h0 := hall 0 (by omega)
            rw [Nat.add_zero] at h0
            rw [h0.2.2.1] at h3
            cases h3
        · rw [if_neg h3]
          have hok0 : (∀ i, j0 = i + 1 →
              ¬(WT_RCC_REPEAT_DATA db (rccEntry db raw i) =
                  WT_RCC_REPEAT_DATA db (rccEntry db raw j0) ∧
                WT_RCC_REPEAT_COUNT (rccEntry db raw i) < UINT16_MAX)) →
              rccEntryOk db size raw j0 := by
            intro h4
            refine ⟨by omega, h2, ?_, h4⟩
            cases hfd : fixDeleteBad db (WT_RCC_REPEAT_DATA db (rccEntry db raw j0)) with
            | true => exact absurd hfd h3
            | false => rfl
          have hih := ih (j0 + 1)
          rw [if_neg (by omega : ¬(j0 + 1 = 0)), Nat.add_sub_cancel, hsucc,
            ← Nat.add_assoc] at hih
          have hident : (match (if j0 = 0 then none
                else some (rccEntry db raw (j0 - 1)) : Option Bytes) with
              | some prev =>
                WT_RCC_REPEAT_DATA db prev == WT_RCC_REPEAT_DATA db (rccEntry db raw j0) &&
                  decide (WT_RCC_REPEAT_COUNT prev < UINT16_MAX)
              | none => false) =
              (if j0 = 0 then false else
                (WT_RCC_REPEAT_DATA db (rccEntry db raw (j0 - 1)) ==
                    WT_RCC_REPEAT_DATA db (rccEntry db raw j0) &&
                  decide (WT_RCC_REPEAT_COUNT (rccEntry db raw (j0 - 1)) < UINT16_MAX))) := by
            by_cases hj : j0 = 0
            · simp [hj]
            · simp [hj]
          rw [hident]
          have hstep : ∀ k, j0 + (k + 1) = j0 + 1 + k := by intro k; omega
          by_cases hj : j0 = 0
          · rw [if_pos hj]
            rw [if_neg (by simp : ¬((false : Bool) = true))]
            rw [hih]
            constructor
            · intro hall k hk
              match k, hk with
              | 0, _ =>
                rw [Nat.add_zero]
                exact hok0 (fun i hi => by omega)
              | k + 1, hk =>
                rw [hstep k]
                exact hall k (by omega)
            · intro hall k hk
              rw [← hstep k]
              exact hall (k + 1) (by omega)
          · rw [if_neg hj]
            by_cases hbt : (WT_RCC_REPEAT_DATA db (rccEntry db raw (j0 - 1)) ==
                WT_RCC_REPEAT_DATA db (rccEntry db raw j0) &&
              decide (WT_RCC_REPEAT_COUNT (rccEntry db raw (j0 - 1)) < UINT16_MAX)) = true
            · rw [if_pos hbt]
              constructor
              · intro hc; cases hc
              · intro hall
                have h0 := hall 0 (by omega)
                rw [Nat.add_zero] at h0
                have h4 := h0.2.2.2 (j0 - 1) (by omega)
                rw [Bool.and_eq_true, beq_iff_eq, decide_eq_true_eq] at hbt
                exact (h4 hbt).elim
            · rw [if_neg hbt]
              rw [hih]
              have h4 : ∀ i, j0 = i + 1 →
                  ¬(WT_RCC_REPEAT_DATA db (rccEntry db raw i) =
                      WT_RCC_REPEAT_DATA db (rccEntry db raw j0) ∧
                    WT_RCC_REPEAT_COUNT (rccEntry db raw i) < UINT16_MAX) := by
                intro i hi hpair
                apply hbt
                have hi1 : j0 - 1 = i := by omega
                rw [hi1, Bool.and_eq_true, beq_iff_eq, decide_eq_true_eq]
                exact hpair
              constructor
              · intro hall k hk
                match k, hk with
                | 0, _ =>
                  rw [Nat.add_zero]
                  exact hok0 h4
                | k + 1, hk =>
                  rw [hstep k]
                  exact hall k (by omega)
              · intro hall k hk
                rw [← hstep k]
                exact hall (k + 1) (by omega)

/-- C8 counterexample.  The claim says COL_RCC validation fails when
two adjacent entries have identical payloads while the earlier entry's
count is below 2^16.  A 16-bit count is always below 2^16, so the claim
demands failure for every adjacent identical pair; the code only fails
when the earlier count is below UINT16_MAX = 2^16 - 1.  On a page whose
first entry has count 65535 and whose two payloads are identical, the
walk (and the whole page validation) succeeds although the claim's
condition holds. -/
theorem c8_rcc_counterexample :
    colRccLoop db0 1 512 rccRawMax 2 0 WT_PAGE_HDR_SIZE none = none ∧
    exOk (wt_bt_verify_page 1 db0 pageRccMax (vstate0 3)) = true ∧
    WT_RCC_REPEAT_DATA db0 (rccEntry db0 rccRawMax 0) =
      WT_RCC_REPEAT_DATA db0 (rccEntry db0 rccRawMax 1) ∧
    WT_RCC_REPEAT_COUNT (rccEntry db0 rccRawMax 0) < 2 ^ 16 :=
  ⟨rfl, rfl, rfl, by decide⟩

/-- C8 amended: COL_RCC page validation walks the {count, payload}
entries and fails exactly when an entry extends past the end of the
page, has repeat count 0, is a deleted payload with a non-nul trailing
byte, or duplicates the previous payload while the previous entry's
count is strictly below UINT16_MAX (65535), that is below 2^16 - 1
rather than 2^16. -/
theorem c8_rcc_amended (db : DB) (addr size : Nat) (raw : Bytes) (n : Nat) :
    colRccLoop db addr size raw n 0 WT_PAGE_HDR_SIZE none = none ↔
      ∀ j, j < n → rccEntryOk db size raw j := by
  have h := colRccLoop_none_iff db addr size raw n 0
  rw [if_pos rfl] at h
  simpa using h

/-- Behavior of the comparator tail: a first-entry comparison errors
exactly on a negative result, a last-entry comparison exactly on a
non-negative result, each with its diagnostic. -/
theorem cmpFinish_spec (addr : Nat) (fe : Bool) (cmp : Int) :
    ((cmpFinish addr fe cmp).ret ≠ 0 ↔
      (fe = true ∧ cmp < 0) ∨ (fe = false ∧ 0 ≤ cmp)) ∧
    (fe = true ∧ cmp < 0 →
      (cmpFinish addr fe cmp).diag = some (.firstKeySortsBefore addr)) ∧
    (fe = false ∧ 0 ≤ cmp →
      (cmpFinish addr fe cmp).diag = some (.lastKeySortsAfter addr)) := by
  cases fe <;> unfold cmpFinish <;> split_ifs <;> simp_all [WT_ERROR]

/-- The parent half of the comparator reduces to the comparison tail
whenever the parent key materializes. -/
theorem cmpParentStep_eq (f : Bytes → Bytes → Int) (pk : KeyMat)
    (addr : Nat) (fe : Bool) (cd : Bytes) (s o : Nat) (pb : Bytes)
    (hpb : keyMatBytes pk = some pb) :
    cmpParentStep f pk addr fe cd s o = cmpFinish addr fe (f cd pb) := by
  unfold cmpParentStep
  unfold keyMatBytes at hpb
  by_cases hp : pk.process
  · rw [if_pos hp] at hpb ⊢
    cases hproc : pk.proc with
    | error c => rw [hproc] at hpb; simp at hpb
    | ok out =>
      rw [hproc] at hpb
      dsimp only at hpb ⊢
      injection hpb with hpb
      rw [hpb]
  · rw [if_neg hp] at hpb ⊢
    injection hpb with hpb
    rw [hpb]

/-- The whole comparator reduces to the comparison tail whenever the
designated child entry exists and both keys materialize. -/
theorem bt_verify_cmp_eq (db : DB) (prip : RowIndx) (child : Page)
    (first_entry : Bool) (crip : RowIndx) (cb pb : Bytes)
    (f : Bytes → Bytes → Int)
    (hf : funcOf db child.hdr.ptype = some f)
    (hent : (if first_entry then child.irow.head? else child.irow.getLast?)
      = some crip)
    (hcb : keyMatBytes crip.key = some cb)
    (hpb : keyMatBytes prip.key = some pb) :
    bt_verify_cmp db prip child first_entry
      = cmpFinish child.addr first_entry (f cb pb) := by
  unfold bt_verify_cmp
  rw [hf, hent]
  dsimp only
  unfold keyMatBytes at hcb
  by_cases hcp : crip.key.process
  · rw [if_pos hcp] at hcb ⊢
    cases hproc : crip.key.proc with
    | error c => rw [hproc] at hcb; simp at hcb
    | ok out =>
      rw [hproc] at hcb
      dsimp only at hcb ⊢
      injection hcb with hcb
      rw [hcb]
      exact cmpParentStep_eq f prip.key child.addr first_entry cb 1 _ pb hpb
  · rw [if_neg hcp] at hcb ⊢
    injection hcb with hcb
    rw [hcb]
    exact cmpParentStep_eq f prip.key child.addr first_entry cb 0 0 pb hpb

/-- C4: for a row or duplicate child page whose boundary entry exists
and whose keys materialize, the parent/child boundary comparison fails
exactly when violated: in first-entry mode a comparison result below 0
(child first key before the parent key) is an error with the
first-key diagnostic, in last-entry mode a result at or above 0 is an
error with the last-key diagnostic, and the collation used is the
duplicate collation for DUP pages and the primary collation for ROW
pages. -/
theorem c4_boundary_cmp (db : DB) (prip : RowIndx) (child : Page)
    (first_entry : Bool) (crip : RowIndx) (cb pb : Bytes)
    (f : Bytes → Bytes → Int)
    (hf : funcOf db child.hdr.ptype = some f)
    (hent : (if first_entry then child.irow.head? else child.irow.getLast?)
      = some crip)
    (hcb : keyMatBytes crip.key = some cb)
    (hpb : keyMatBytes prip.key = some pb) :
    ((bt_verify_cmp db prip child first_entry).ret ≠ 0 ↔
      (first_entry = true ∧ f cb pb < 0) ∨ (first_entry = false ∧ 0 ≤ f cb pb)) ∧
    (first_entry = true ∧ f cb pb < 0 →
      (bt_verify_cmp db prip child first_entry).diag =
        some (.firstKeySortsBefore child.addr)) ∧
    (first_entry = false ∧ 0 ≤ f cb pb →
      (bt_verify_cmp db prip child first_entry).diag =
        some (.lastKeySortsAfter child.addr)) ∧
    ((child.hdr.ptype = .dupInt ∨ child.hdr.ptype = .dupLeaf) →
      f = db.btree_compare_dup) ∧
    ((child.hdr.ptype = .rowInt ∨ child.hdr.ptype = .rowLeaf) →
      f = db.btree_compare) := by
  rw [bt_verify_cmp_eq db prip child first_entry crip cb pb f hf hent hcb hpb]
  have hs := cmpFinish_spec child.addr first_entry (f cb pb)
  refine ⟨hs.1, hs.2.1, hs.2.2, ?_, ?_⟩
  · intro hdup
    cases hdup with
    | inl h => rw [h] at hf; injection hf with hf; exact hf.symm
    | inr h => rw [h] at hf; injection hf with hf; exact hf.symm
  · intro hrow
    cases hrow with
    | inl h => rw [h] at hf; injection hf with hf; exact hf.symm
    | inr h => rw [h] at hf; injection hf with hf; exact hf.symm

/-- Reading a bit after setting one. -/
theorem bit_test_set (bits : List Bool) (j i : Nat) :
    bit_test (bit_set bits j) i =
      if i = j ∧ j < bits.length then true else bit_test bits i := by
  induction bits generalizing i j with
  | nil => simp [bit_test, bit_set]
  | cons b rest ih =>
    cases j with
    | zero =>
      cases i with
      | zero => simp [bit_test, bit_set]
      | succ i => simp [bit_test, bit_set]
    | succ j =>
      cases i with
      | zero => simp [bit_test, bit_set]
      | succ i =>
        have h2 := ih j i
        simp only [bit_test, bit_set] at h2 ⊢
        have hset : (b :: rest).set (j + 1) true = b :: rest.set j true := rfl
        rw [hset, List.getD_cons_succ, h2, List.length_cons]
        by_cases h : i = j ∧ j < rest.length
        · rw [if_pos h, if_pos (by omega : i + 1 = j + 1 ∧ j + 1 < rest.length + 1)]
        · rw [if_neg h, if_neg (by omega : ¬(i + 1 = j + 1 ∧ j + 1 < rest.length + 1))]
          rfl

/-- Setting a bit preserves the length. -/
theorem bit_set_length (bits : List Bool) (j : Nat) :
    (bit_set bits j).length = bits.length := by
  simp [bit_set]

/-- Membership in clearIndices is exactly being a clear bit. -/
theorem mem_clearIndices (bits : List Bool) :
    ∀ i, i ∈ clearIndices bits ↔ bits.get? i = some false := by
  induction bits with
  | nil => intro i; simp [clearIndices]
  | cons b rest ih =>
    intro i
    cases b with
    | false =>
      cases i with
      | zero => simp [clearIndices]
      | succ i =>
        simp only [clearIndices, List.mem_cons, List.mem_map, List.get?_cons_succ]
        constructor
        · intro h
          rcases h with h | ⟨j, hj, hji⟩
          · cases h
          · have hj2 : j = i := by omega
            subst hj2
            exact (ih j).mp hj
        · intro h
          exact Or.inr ⟨i, (ih i).mpr h, rfl⟩
    | true =>
      cases i with
      | zero =>
        simp only [clearIndices, List.mem_map, List.get?_cons_zero]
        constructor
        · intro ⟨j, _, hji⟩; cases hji
        · intro h; cases h
      | succ i =>
        simp only [clearIndices, List.mem_map, List.get?_cons_succ]
        constructor
        · intro ⟨j, hj, hji⟩
          have hj2 : j = i := by omega
          subst hj2
          exact (ih j).mp hj
        · intro h
          exact ⟨i, (ih i).mpr h, rfl⟩

/-- The clear-bit indices are strictly ascending. -/
theorem clearIndices_sorted (bits : List Bool) :
    List.Chain' (· < ·) (clearIndices bits) := by
  induction bits with
  | nil => simp [clearIndices]
  | cons b rest ih =>
    have hmap : List.Chain' (· < ·) ((clearIndices rest).map (· + 1)) := by
      rw [List.chain'_map]
      exact ih.imp (fun h => by omega)
    cases b with
    | false =>
      refine List.chain'_cons'.mpr ⟨?_, hmap⟩
      intro y hy
      rcases List.mem_map.mp (List.mem_of_mem_head? hy) with ⟨j, _, hj⟩
      omega
    | true => exact hmap

/-- No clear bit found means no clear indices. -/
theorem clearIndices_ffc_none (bits : List Bool) :
    bit_ffc bits = none → clearIndices bits = [] := by
  induction bits with
  | nil => intro _; rfl
  | cons b rest ih =>
    cases b with
    | false => intro h; cases h
    | true =>
      intro h
      simp only [bit_ffc] at h
      cases hr : bit_ffc rest with
      | some j => rw [hr] at h; simp at h
      | none => simp [clearIndices, ih hr]

/-- The first clear bit heads the clear-index list, and setting it
drops it. -/
theorem clearIndices_ffc_some (bits : List Bool) :
    ∀ i, bit_ffc bits = some i →
      clearIndices bits = i :: clearIndices (bit_set bits i) := by
  induction bits with
  | nil => intro i h; cases h
  | cons b rest ih =>
    intro i
    cases b with
    | false =>
      intro h
      injection h with h
      subst h
      simp [clearIndices, bit_set]
    | true =>
      intro h
      simp only [bit_ffc] at h
      cases hr : bit_ffc rest with
      | none => rw [hr] at h; simp at h
      | some j =>
        rw [hr] at h
        have h2 : j + 1 = i := by simpa using h
        subst h2
        have hset : bit_set (true :: rest) (j + 1) = true :: bit_set rest j := rfl
        rw [hset]
        simp only [clearIndices, ih j hr]
        rfl

/-- Scanning past the first clear bit reduces the false count. -/
theorem count_false_ffc (bits : List Bool) :
    ∀ i, bit_ffc bits = some i →
      bits.count false = (bit_set bits i).count false + 1 := by
  induction bits with
  | nil => intro i h; cases h
  | cons b rest ih =>
    intro i
    cases b with
    | false =>
      intro h
      injection h with h
      subst h
      simp [bit_set, List.count_cons]
    | true =>
      intro h
      simp only [bit_ffc] at h
      cases hr : bit_ffc rest with
      | none => rw [hr] at h; simp at h
      | some j =>
        rw [hr] at h
        have h2 : j + 1 = i := by simpa using h
        subst h2
        have hset : bit_set (true :: rest) (j + 1) = true :: bit_set rest j := rfl
        rw [hset]
        simp [List.count_cons, ih j hr]

/-- With enough fuel, the checkfrag scan loop is the pure coalescing
fold over the clear-bit indices. -/
theorem checkfragLoop_coalesce :
    ∀ (fuel : Nat) (bits : List Bool) (s e : Int) (d : List Diag) (r : Int),
      bits.count false < fuel →
      checkfragLoop fuel bits s e d r = coalesce (clearIndices bits) s e d r := by
  intro fuel
  induction fuel with
  | zero => intro bits s e d r h; omega
  | succ m ih =>
    intro bits s e d r h
    rw [checkfragLoop]
    cases hffc : bit_ffc bits with
    | none =>
      rw [clearIndices_ffc_none bits hffc]
      rfl
    | some i =>
      rw [clearIndices_ffc_some bits i hffc]
      dsimp only
      have hcount : (bit_set bits i).count false < m := by
        have := count_false_ffc bits i hffc
        omega
      rw [coalesce]
      by_cases hs : s = -1
      · rw [if_pos hs, if_pos hs]
        exact ih (bit_set bits i) _ _ d r hcount
      · rw [if_neg hs, if_neg hs]
        by_cases he : e = Int.ofNat i - 1
        · rw [if_pos he, if_pos he]
          exact ih (bit_set bits i) _ _ d r hcount
        · rw [if_neg he, if_neg he]
          exact ih (bit_set bits i) _ _ _ _ hcount

/-- The coalescing fold with a pending run, over an ascending tail,
reports exactly the grouped runs and returns the error code. -/
theorem coalesce_go :
    ∀ (l : List Nat) (s e : Nat) (d : List Diag) (r : Int),
      List.Chain' (· < ·) (e :: l) →
      coalesce l (Int.ofNat s) (Int.ofNat e) d r =
        (d ++ (groupRunsFrom s e l).map
          (fun p => runReport (Int.ofNat p.1) (Int.ofNat p.2)), WT_ERROR) := by
  intro l
  induction l with
  | nil =>
    intro s e d r _
    rw [coalesce, if_pos (by simp only [Int.ofNat_eq_natCast]; omega :
      ¬(Int.ofNat s = -1))]
    rfl
  | cons c rest ih =>
    intro s e d r hchain
    have hec : e < c := (List.chain'_cons.mp hchain).1
    have hrest : List.Chain' (· < ·) (c :: rest) := (List.chain'_cons.mp hchain).2
    rw [coalesce, if_neg (by simp only [Int.ofNat_eq_natCast]; omega :
      ¬(Int.ofNat s = -1))]
    by_cases hc : c = e + 1
    · rw [if_pos (by simp only [Int.ofNat_eq_natCast]; omega :
        Int.ofNat e = Int.ofNat c - 1)]
      rw [groupRunsFrom, if_pos hc]
      exact ih s c d r hrest
    · rw [if_neg (by simp only [Int.ofNat_eq_natCast]; omega :
        ¬(Int.ofNat e = Int.ofNat c - 1))]
      rw [groupRunsFrom, if_neg hc]
      rw [ih c c (d ++ [runReport (Int.ofNat s) (Int.ofNat e)]) WT_ERROR hrest]
      simp [runReport]

/-- The behavior of __wt_bt_verify_checkfrag: the diagnostics are the
grouped runs of clear bits in order, and the return code is 0 exactly
when no bit was clear. -/
theorem checkfrag_spec (bits : List Bool) :
    (bt_verify_checkfrag bits).1 =
      (groupRuns (clearIndices bits)).map
        (fun p => runReport (Int.ofNat p.1) (Int.ofNat p.2)) ∧
    ((bt_verify_checkfrag bits).2 = 0 ↔ clearIndices bits = []) := by
  have hloop := checkfragLoop_coalesce (bits.count false + 1) bits (-1) (-1) [] 0
    (by omega)
  unfold bt_verify_checkfrag
  rw [hloop]
  cases hci : clearIndices bits with
  | nil => simp [coalesce, groupRuns]
  | cons c rest =>
    have hchain : List.Chain' (· < ·) (c :: rest) := by
      rw [← hci]; exact clearIndices_sorted bits
    rw [coalesce, if_pos rfl]
    rw [coalesce_go rest c c [] 0 hchain]
    constructor
    · simp [groupRuns]
    · constructor
      · intro h
        rw [WT_ERROR] at h
        cases h
      · intro h
        cases h

/-- The addfrag test loop hits exactly when some bit of the range is
already set. -/
theorem addfragAnySet_iff (bits : List Bool) (addr : Nat) :
    ∀ n, addfragAnySet bits addr n = true ↔
      ∃ i, i < n ∧ bit_test bits (addr + i) = true := by
  intro n
  induction n with
  | zero => simp [addfragAnySet]
  | succ m ih =>
    simp only [addfragAnySet, Bool.or_eq_true, ih]
    constructor
    · intro h
      rcases h with ⟨i, hi, hb⟩ | hb
      · exact ⟨i, by omega, hb⟩
      · exact ⟨m, by omega, hb⟩
    · intro ⟨i, hi, hb⟩
      by_cases him : i = m
      · subst him; exact Or.inr hb
      · exact Or.inl ⟨i, by omega, hb⟩

/-- Reading after a left-anchored run of sets. -/
theorem foldl_set_range_test (bits : List Bool) (s : Nat) :
    ∀ (m : Nat) (i : Nat),
      bit_test ((List.range m).foldl (fun b k => b.set (s + k) true) bits) i = true ↔
        (bit_test bits i = true ∨ (s ≤ i ∧ i < s + m ∧ i < bits.length)) := by
  intro m
  induction m with
  | zero =>
    intro i
    simp only [List.range_zero, List.foldl_nil, Nat.add_zero]
    constructor
    · intro h; exact Or.inl h
    · intro h
      rcases h with h | h
      · exact h
      · omega
  | succ k ih =>
    intro i
    rw [List.range_succ, List.foldl_append]
    simp only [List.foldl_cons, List.foldl_nil]
    have hlen : ((List.range k).foldl (fun b j => b.set (s + j) true) bits).length
        = bits.length := by
      clear ih
      induction k with
      | zero => rfl
      | succ k2 ih2 =>
        rw [List.range_succ, List.foldl_append]
        simp only [List.foldl_cons, List.foldl_nil, List.length_set]
        exact ih2
    have hset := bit_test_set ((List.range k).foldl (fun b j => b.set (s + j) true) bits)
      (s + k) i
    rw [hlen] at hset
    rw [show ((List.range k).foldl (fun b j => b.set (s + j) true) bits).set (s + k) true
      = bit_set ((List.range k).foldl (fun b j => b.set (s + j) true) bits) (s + k) from rfl]
    rw [hset]
    by_cases hik : i = s + k ∧ s + k < bits.length
    · rw [if_pos hik]
      constructor
      · intro _; exact Or.inr ⟨by omega, by omega, by omega⟩
      · intro _; rfl
    · rw [if_neg hik, ih i]
      constructor
      · intro h
        rcases h with h | h
        · exact Or.inl h
        · exact Or.inr ⟨h.1, by omega, h.2.2⟩
      · intro h
        rcases h with h | h
        · exact Or.inl h
        · refine Or.inr ⟨h.1, ?_, h.2.2⟩
          have : ¬(i = s + k) := by
            intro hc; exact hik ⟨hc, by omega⟩
          omega

/-- bit_nset sets exactly the in-range, in-bounds bits. -/
theorem bit_nset_test (bits : List Bool) (s n : Nat) :
    ∀ i, bit_test (bit_nset bits s (s + n)) i = true ↔
      (bit_test bits i = true ∨ (s ≤ i ∧ i < s + n + 1 ∧ i < bits.length)) := by
  intro i
  unfold bit_nset
  rw [show s + n + 1 - s = n + 1 by omega]
  exact foldl_set_range_test bits s (n + 1) i

/-- bit_nset preserves the length. -/
theorem bit_nset_length (bits : List Bool) (s t : Nat) :
    (bit_nset bits s t).length = bits.length := by
  unfold bit_nset
  induction (t + 1 - s) with
  | zero => rfl
  | succ k ih =>
    rw [List.range_succ, List.foldl_append]
    simp only [List.foldl_cons, List.foldl_nil, List.length_set]
    exact ih

/-- Registration reports the already-verified diagnostic exactly when
some fragment of the page range is already covered. -/
theorem addfrag_diag_iff (db : DB) (p : Page) (bits : List Bool) :
    (bt_verify_addfrag db p bits).1 = some (Diag.alreadyVerified p.addr) ↔
      ∃ i, i < WT_OFF_TO_ADDR db p.size ∧ bit_test bits (p.addr + i) = true := by
  unfold bt_verify_addfrag
  by_cases h : addfragAnySet bits p.addr (WT_OFF_TO_ADDR db p.size) = true
  · rw [if_pos h]
    exact ⟨fun _ => (addfragAnySet_iff bits p.addr _).mp h, fun _ => rfl⟩
  · rw [if_neg h]
    constructor
    · intro hc; cases hc
    · intro hex
      exact absurd ((addfragAnySet_iff bits p.addr _).mpr hex) h

/-- Successful registration: the page range was all clear, and the
result sets exactly that range. -/
theorem addfrag_ok_bits (db : DB) (p : Page) (bits bits2 : List Bool)
    (hfr : 1 ≤ WT_OFF_TO_ADDR db p.size)
    (h : bt_verify_addfrag db p bits = (none, bits2)) :
    bits2.length = bits.length ∧
    (∀ i, bit_test bits2 i = true ↔
      (bit_test bits i = true ∨ (inFrag db p i ∧ i < bits.length))) ∧
    (∀ i, inFrag db p i → bit_test bits i = false) := by
  unfold bt_verify_addfrag at h
  by_cases hany : addfragAnySet bits p.addr (WT_OFF_TO_ADDR db p.size) = true
  · rw [if_pos hany] at h
    have := congrArg Prod.fst h
    cases this
  · rw [if_neg hany] at h
    have hb : bits2 = bit_nset bits p.addr
        (p.addr + (WT_OFF_TO_ADDR db p.size - 1)) := (congrArg Prod.snd h).symm
    subst hb
    refine ⟨bit_nset_length bits _ _, ?_, ?_⟩
    · intro i
      rw [bit_nset_test bits p.addr (WT_OFF_TO_ADDR db p.size - 1) i]
      unfold inFrag
      constructor
      · intro hh
        rcases hh with hh | hh
        · exact Or.inl hh
        · exact Or.inr ⟨⟨hh.1, by omega⟩, hh.2.2⟩
      · intro hh
        rcases hh with hh | hh
        · exact Or.inl hh
        · exact Or.inr ⟨hh.1.1, by omega, hh.2⟩
    · intro i hif
      cases hbt : bit_test bits i with
      | false => rfl
      | true =>
        exfalso
        apply hany
        rw [addfragAnySet_iff]
        refine ⟨i - p.addr, by unfold inFrag at hif; omega, ?_⟩
        rw [show p.addr + (i - p.addr) = i by unfold inFrag at hif; omega]
        exact hbt

/-- Sequential registration semantics: success means each range was
clear when registered, the result covers exactly the union, and the
ranges are pairwise disjoint. -/
theorem addfragSeq_sem (db : DB) :
    ∀ (pages : List Page) (bits bits2 : List Bool),
      (∀ p ∈ pages, 1 ≤ WT_OFF_TO_ADDR db p.size ∧
        p.addr + WT_OFF_TO_ADDR db p.size ≤ bits.length) →
      addfragSeq db pages bits = (none, bits2) →
      bits2.length = bits.length ∧
      (∀ i, bit_test bits2 i = true ↔
        (bit_test bits i = true ∨ ∃ p, p ∈ pages ∧ inFrag db p i)) ∧
      (∀ p, p ∈ pages → ∀ i, inFrag db p i → bit_test bits i = false) ∧
      List.Pairwise (fun p q => ∀ i, ¬(inFrag db p i ∧ inFrag db q i)) pages := by
  intro pages
  induction pages with
  | nil =>
    intro bits bits2 _ h
    have hb : bits2 = bits := (congrArg Prod.snd h).symm
    subst hb
    refine ⟨rfl, ?_, ?_, List.Pairwise.nil⟩
    · intro i
      constructor
      · intro hh; exact Or.inl hh
      · intro hh
        rcases hh with hh | ⟨p, hp, _⟩
        · exact hh
        · cases hp
    · intro p hp; cases hp
  | cons p ps ih =>
    intro bits bits2 hwf h
    have hwfp := hwf p (by simp)
    rw [addfragSeq] at h
    cases haf : bt_verify_addfrag db p bits with
    | mk o b =>
      rw [haf] at h
      cases o with
      | some d =>
        have := congrArg Prod.fst h
        cases this
      | none =>
        have hok := addfrag_ok_bits db p bits b hwfp.1 haf
        have hwf2 : ∀ q ∈ ps, 1 ≤ WT_OFF_TO_ADDR db q.size ∧
            q.addr + WT_OFF_TO_ADDR db q.size ≤ b.length := by
          intro q hq
          rw [hok.1]
          exact hwf q (List.mem_cons_of_mem p hq)
        have hih := ih b bits2 hwf2 h
        have hinp : ∀ i, inFrag db p i → i < bits.length := by
          intro i hi
          unfold inFrag at hi
          have := hwfp.2
          omega
        refine ⟨by rw [hih.1, hok.1], ?_, ?_, ?_⟩
        · intro i
          rw [hih.2.1 i, hok.2.1 i]
          constructor
          · intro hh
            rcases hh with (hh | hh) | ⟨q, hq, hqi⟩
            · exact Or.inl hh
            · exact Or.inr ⟨p, by simp, hh.1⟩
            · exact Or.inr ⟨q, List.mem_cons_of_mem p hq, hqi⟩
          · intro hh
            rcases hh with hh | ⟨q, hq, hqi⟩
            · exact Or.inl (Or.inl hh)
            · rcases List.mem_cons.mp hq with hq | hq
              · subst hq
                exact Or.inl (Or.inr ⟨hqi, hinp i hqi⟩)
              · exact Or.inr ⟨q, hq, hqi⟩
        · intro q hq i hqi
          rcases List.mem_cons.mp hq with hq | hq
          · subst hq
            exact hok.2.2 i hqi
          · have hbf := hih.2.2.1 q hq i hqi
            cases hbt : bit_test bits i with
            | false => rfl
            | true =>
              exfalso
              have : bit_test b i = true := (hok.2.1 i).mpr (Or.inl hbt)
              rw [this] at hbf
              cases hbf
        · rw [List.pairwise_cons]
          refine ⟨?_, hih.2.2.2⟩
          intro q hq i ⟨hpi, hqi⟩
          have hclear := hih.2.2.1 q hq i hqi
          have hset : bit_test b i = true :=
            (hok.2.1 i).mpr (Or.inr ⟨hpi, hinp i hpi⟩)
          rw [hset] at hclear
          cases hclear

/-- Run grouping is sound: every reported run consists of clear
indices and is maximal, stated through an abstract membership
predicate. -/
theorem groupRunsFrom_sound (P : Nat → Prop) :
    ∀ (l : List Nat) (s0 e0 : Nat),
      s0 ≤ e0 →
      (∀ i, s0 ≤ i → i ≤ e0 → P i) →
      (s0 = 0 ∨ ¬ P (s0 - 1)) →
      (∀ x, P x → x ≤ e0 ∨ x ∈ l) →
      List.Pairwise (· < ·) (e0 :: l) →
      (∀ x, x ∈ l → P x) →
      ∀ s e, (s, e) ∈ groupRunsFrom s0 e0 l →
        s ≤ e ∧ (∀ i, s ≤ i → i ≤ e → P i) ∧
        (s = 0 ∨ ¬ P (s - 1)) ∧ ¬ P (e + 1) := by
  intro l
  induction l with
  | nil =>
    intro s0 e0 h0 h1 h2 h3 _ _ s e hmem
    rw [groupRunsFrom] at hmem
    simp only [List.mem_singleton, Prod.mk.injEq] at hmem
    obtain ⟨hs, he⟩ := hmem
    subst hs; subst he
    refine ⟨h0, h1, h2, ?_⟩
    intro hP
    rcases h3 _ hP with hh | hh
    · omega
    · cases hh
  | cons c rest ih =>
    intro s0 e0 h0 h1 h2 h3 hpair h5 s e hmem
    have hec : e0 < c := (List.pairwise_cons.mp hpair).1 c (by simp)
    have hpc : List.Pairwise (· < ·) (c :: rest) := (List.pairwise_cons.mp hpair).2
    have hcr : ∀ x ∈ rest, c < x := (List.pairwise_cons.mp hpc).1
    rw [groupRunsFrom] at hmem
    by_cases hc : c = e0 + 1
    · rw [if_pos hc] at hmem
      refine ih s0 c (by omega) ?_ h2 ?_ hpc ?_ s e hmem
      · intro i hi1 hi2
        by_cases hie : i ≤ e0
        · exact h1 i hi1 hie
        · have hic : i = c := by omega
          rw [hic]
          exact h5 c (by simp)
      · intro x hx
        rcases h3 x hx with hh | hh
        · exact Or.inl (by omega)
        · rcases List.mem_cons.mp hh with hh | hh
          · exact Or.inl (by omega)
          · exact Or.inr hh
      · intro x hx
        exact h5 x (List.mem_cons_of_mem c hx)
    · rw [if_neg hc] at hmem
      rcases List.mem_cons.mp hmem with hmem | hmem
      · simp only [Prod.mk.injEq] at hmem
        obtain ⟨hs, he⟩ := hmem
        subst hs; subst he
        refine ⟨h0, h1, h2, ?_⟩
        intro hP
        rcases h3 _ hP with hh | hh
        · omega
        · rcases List.mem_cons.mp hh with hh | hh
          · omega
          · have := hcr _ hh; omega
      · refine ih c c (Nat.le_refl c) ?_ ?_ ?_ hpc ?_ s e hmem
        · intro i hi1 hi2
          have hic : i = c := by omega
          rw [hic]
          exact h5 c (by simp)
        · refine Or.inr ?_
          intro hP
          rcases h3 _ hP with hh | hh
          · omega
          · rcases List.mem_cons.mp hh with hh | hh
            · omega
            · have := hcr _ hh; omega
        · intro x hx
          rcases h3 x hx with hh | hh
          · exact Or.inl (by omega)
          · rcases List.mem_cons.mp hh with hh | hh
            · exact Or.inl (by omega)
            · exact Or.inr hh
        · intro x hx
          exact h5 x (List.mem_cons_of_mem c hx)

/-- Every reported run of a strictly ascending list consists of member
indices and has non-member boundaries. -/
theorem groupRuns_sound (l : List Nat)
    (hpair : List.Pairwise (· < ·) l) :
    ∀ s e, (s, e) ∈ groupRuns l →
      s ≤ e ∧ (∀ i, s ≤ i → i ≤ e → i ∈ l) ∧
      (s = 0 ∨ (s - 1) ∉ l) ∧ (e + 1) ∉ l := by
  cases l with
  | nil => intro s e h; cases h
  | cons c rest =>
    intro s e hmem
    have hcr : ∀ x ∈ rest, c < x := (List.pairwise_cons.mp hpair).1
    refine groupRunsFrom_sound (· ∈ c :: rest) rest c c (Nat.le_refl c) ?_ ?_ ?_
      hpair ?_ s e hmem
    · intro i hi1 hi2
      have hic : i = c := by omega
      rw [hic]
      simp
    · by_cases hc0 : c = 0
      · exact Or.inl hc0
      · refine Or.inr ?_
        intro hh
        rcases List.mem_cons.mp hh with hh | hh
        · omega
        · have := hcr _ hh; omega
    · intro x hx
      rcases List.mem_cons.mp hx with hh | hh
      · exact Or.inl (by omega)
      · exact Or.inr hh
    · intro x hx
      exact List.mem_cons_of_mem c hx

/-- Run grouping is complete: every index, whether in the pending run
or in the remaining list, lands in some reported run. -/
theorem groupRunsFrom_complete :
    ∀ (l : List Nat) (s0 e0 : Nat), s0 ≤ e0 →
      ∀ i, (i ∈ l ∨ (s0 ≤ i ∧ i ≤ e0)) →
        ∃ r, r ∈ groupRunsFrom s0 e0 l ∧ r.1 ≤ i ∧ i ≤ r.2 := by
  intro l
  induction l with
  | nil =>
    intro s0 e0 h0 i hi
    rcases hi with hi | hi
    · cases hi
    · exact ⟨(s0, e0), by simp [groupRunsFrom], hi.1, hi.2⟩
  | cons c rest ih =>
    intro s0 e0 h0 i hi
    rw [groupRunsFrom]
    by_cases hc : c = e0 + 1
    · rw [if_pos hc]
      apply ih s0 c (by omega)
      rcases hi with hi | hi
      · rcases List.mem_cons.mp hi with hi | hi
        · exact Or.inr (by omega)
        · exact Or.inl hi
      · exact Or.inr ⟨hi.1, by omega⟩
    · rw [if_neg hc]
      rcases hi with hi | hi
      · rcases List.mem_cons.mp hi with hi | hi
        · subst hi
          obtain ⟨r, hr, h1, h2⟩ := ih i i (Nat.le_refl i) i
            (Or.inr ⟨Nat.le_refl i, Nat.le_refl i⟩)
          exact ⟨r, List.mem_cons_of_mem _ hr, h1, h2⟩
        · obtain ⟨r, hr, h1, h2⟩ := ih c c (Nat.le_refl c) i (Or.inl hi)
          exact ⟨r, List.mem_cons_of_mem _ hr, h1, h2⟩
      · exact ⟨(s0, e0), by simp, hi.1, hi.2⟩

/-- Every member of a list lands in some grouped run. -/
theorem groupRuns_complete (l : List Nat) :
    ∀ i, i ∈ l → ∃ r, r ∈ groupRuns l ∧ r.1 ≤ i ∧ i ≤ r.2 := by
  cases l with
  | nil => intro i h; cases h
  | cons c rest =>
    intro i hi
    rcases List.mem_cons.mp hi with hi | hi
    · subst hi
      exact groupRunsFrom_complete rest i i (Nat.le_refl i) i
        (Or.inr ⟨Nat.le_refl i, Nat.le_refl i⟩)
    · exact groupRunsFrom_complete rest c c (Nat.le_refl c) i (Or.inl hi)

/-- A fresh bitmap has no set bit. -/
theorem bit_test_replicate_false (n : Nat) :
    ∀ i, bit_test (List.replicate n false) i = false := by
  induction n with
  | zero => intro i; cases i <;> rfl
  | succ m ih =>
    intro i
    cases i with
    | zero => rfl
    | succ j => exact ih j

/-- get? against getD for bit lists. -/
theorem get?_some_iff_bit (bits : List Bool) :
    ∀ i b, bits.get? i = some b ↔ (i < bits.length ∧ bit_test bits i = b) := by
  induction bits with
  | nil =>
    intro i b
    constructor
    · intro h; cases i <;> cases h
    · intro ⟨h, _⟩; cases h
  | cons x rest ih =>
    intro i b
    cases i with
    | zero =>
      constructor
      · intro h
        injection h with h
        exact ⟨by simp, h⟩
      · intro ⟨_, h⟩
        exact congrArg some h
    | succ j =>
      rw [List.get?_cons_succ]
      rw [ih j b]
      constructor
      · intro ⟨h1, h2⟩
        exact ⟨by simp; omega, h2⟩
      · intro ⟨h1, h2⟩
        refine ⟨?_, h2⟩
        simp at h1
        omega

/-- No clear index means every in-range bit is set. -/
theorem clearIndices_nil_iff (bits : List Bool) :
    clearIndices bits = [] ↔ ∀ i, i < bits.length → bit_test bits i = true := by
  rw [List.eq_nil_iff_forall_not_mem]
  constructor
  · intro h i hi
    cases hbt : bit_test bits i with
    | true => rfl
    | false =>
      exact absurd ((mem_clearIndices bits i).mpr
        ((get?_some_iff_bit bits i false).mpr ⟨hi, hbt⟩)) (h i)
  · intro h i hmem
    have h2 := (get?_some_iff_bit bits i false).mp
      ((mem_clearIndices bits i).mp hmem)
    have h3 := h i h2.1
    rw [h2.2] at h3
    cases h3

/-- C3: the fragment map accepts a sequence of page registrations and a
final coverage check with return 0 only if the page ranges are pairwise
disjoint and cover every fragment; registering a page overlapping an
already-covered fragment yields exactly the already-verified
diagnostic; the coverage check reports, in order, one diagnostic per
maximal run of uncovered fragments (singleton or range form through
runReport) and returns 0 exactly when nothing was uncovered; each
reported run consists of uncovered fragments with covered (or
out-of-file) boundaries, and every uncovered fragment lies in some
reported run. -/
theorem c3_fragment_coverage :
    (∀ (db : DB) (pages : List Page) (frags : Nat),
      (∀ p, p ∈ pages → 1 ≤ WT_OFF_TO_ADDR db p.size ∧
        p.addr + WT_OFF_TO_ADDR db p.size ≤ frags) →
      (addfragSeq db pages (List.replicate frags false)).1 = none →
      (bt_verify_checkfrag
        (addfragSeq db pages (List.replicate frags false)).2).2 = 0 →
      List.Pairwise (fun p q => ∀ i, ¬(inFrag db p i ∧ inFrag db q i)) pages ∧
      (∀ i, i < frags → ∃ p, p ∈ pages ∧ inFrag db p i)) ∧
    (∀ (db : DB) (p : Page) (bits : List Bool),
      (bt_verify_addfrag db p bits).1 = some (Diag.alreadyVerified p.addr) ↔
        ∃ i, i < WT_OFF_TO_ADDR db p.size ∧ bit_test bits (p.addr + i) = true) ∧
    (∀ bits : List Bool,
      (bt_verify_checkfrag bits).1 =
        (groupRuns (clearIndices bits)).map
          (fun r => runReport (Int.ofNat r.1) (Int.ofNat r.2)) ∧
      ((bt_verify_checkfrag bits).2 = 0 ↔
        ∀ i, i < bits.length → bit_test bits i = true)) ∧
    (∀ (bits : List Bool) (s e : Nat), (s, e) ∈ groupRuns (clearIndices bits) →
      s ≤ e ∧ (∀ i, s ≤ i → i ≤ e → bits.get? i = some false) ∧
      (s = 0 ∨ ¬(bits.get? (s - 1) = some false)) ∧
      ¬(bits.get? (e + 1) = some false)) ∧
    (∀ (bits : List Bool) (i : Nat), bits.get? i = some false →
      ∃ r, r ∈ groupRuns (clearIndices bits) ∧ r.1 ≤ i ∧ i ≤ r.2) := by
  refine ⟨?_, ?_, ?_, ?_, ?_⟩
  · intro db pages frags hwf hnone hret
    cases hseq : addfragSeq db pages (List.replicate frags false) with
    | mk o b =>
      rw [hseq] at hnone hret
      dsimp only at hnone hret
      subst hnone
      have hlen0 : (List.replicate frags false).length = frags :=
        List.length_replicate frags false
      have hsem := addfragSeq_sem db pages (List.replicate frags false) b
        (by rw [hlen0]; exact hwf) hseq
      refine ⟨hsem.2.2.2, ?_⟩
      intro i hi
      have hall := ((checkfrag_spec b).2.mp hret)
      rw [clearIndices_nil_iff] at hall
      have hbl : b.length = frags := by rw [hsem.1, hlen0]
      have hbt : bit_test b i = true := hall i (by omega)
      have := (hsem.2.1 i).mp hbt
      rcases this with hh | hh
      · rw [bit_test_replicate_false frags i] at hh
        cases hh
      · exact hh
  · intro db p bits
    exact addfrag_diag_iff db p bits
  · intro bits
    refine ⟨(checkfrag_spec bits).1, ?_⟩
    rw [(checkfrag_spec bits).2]
    exact clearIndices_nil_iff bits
  · intro bits s e hmem
    have hpair : List.Pairwise (· < ·) (clearIndices bits) :=
      List.chain'_iff_pairwise.mp (clearIndices_sorted bits)
    have hs := groupRuns_sound (clearIndices bits) hpair s e hmem
    refine ⟨hs.1, ?_, ?_, ?_⟩
    · intro i h1 h2
      exact (mem_clearIndices bits i).mp (hs.2.1 i h1 h2)
    · rcases hs.2.2.1 with h | h
      · exact Or.inl h
      · exact Or.inr (fun hc => h ((mem_clearIndices bits (s - 1)).mpr hc))
    · intro hc
      exact hs.2.2.2 ((mem_clearIndices bits (e + 1)).mpr hc)
  · intro bits i hclear
    exact groupRuns_complete (clearIndices bits) i
      ((mem_clearIndices bits i).mpr hclear)

/-- Witness for C3: three concrete pages tile the three-fragment db0
file, the registrations succeed and the coverage check returns 0, so
the theorem yields disjointness and full coverage. -/
theorem c3_fragment_coverage_witness :
    List.Pairwise (fun p q => ∀ i, ¬(inFrag db0 p i ∧ inFrag db0 q i))
      [pageRowRoot, pageRowLeaf, pageFragB] ∧
    (∀ i, i < 3 → ∃ p, p ∈ [pageRowRoot, pageRowLeaf, pageFragB] ∧
      inFrag db0 p i) :=
  c3_fragment_coverage.1 db0 [pageRowRoot, pageRowLeaf, pageFragB] 3
    (by decide) rfl rfl

theorem isColType_iff (t : PageType) :
    isColType t = true ↔
      (t = .colFix ∨ t = .colInt ∨ t = .colRcc ∨ t = .colVar) := by
  cases t <;> simp [isColType]

theorem isRowDupType_iff (t : PageType) :
    isRowDupType t = true ↔
      (t = .dupInt ∨ t = .dupLeaf ∨ t = .rowInt ∨ t = .rowLeaf) := by
  cases t <;> simp [isRowDupType]

theorem sumRecTake_cons (e : ColIndx) (l : List ColIndx) (k : Nat) :
    sumRecTake (e :: l) (k + 1) = e.off.records + sumRecTake l k := by
  unfold sumRecTake
  rw [List.take_succ_cons, List.map_cons, List.sum_cons]

/-- Decompose a reachability derivation at its first edge. -/
theorem reach_head (r q : Page) (h : Reach r q) :
    q = r ∨ ∃ c, WalkStep r c ∧ Reach c q := by
  induction h with
  | refl => exact Or.inl rfl
  | colKid p k e hr hcol hget ih =>
    rcases ih with ih | ⟨c, hstep, hc⟩
    · refine Or.inr ⟨e.child, ?_, Reach.refl e.child⟩
      refine Or.inl ⟨?_, k, e, ?_, rfl⟩
      · rw [← ih]; exact hcol
      · rw [← ih]; exact hget
    · exact Or.inr ⟨c, hstep, Reach.colKid c p k e hc hcol hget⟩
  | rowKid p k e c2 hr hrow hget hchild ih =>
    rcases ih with ih | ⟨c, hstep, hc⟩
    · refine Or.inr ⟨c2, ?_, Reach.refl c2⟩
      refine Or.inr (Or.inl ⟨?_, k, e, ?_, hchild⟩)
      · rw [← ih]; exact hrow
      · rw [← ih]; exact hget
    · exact Or.inr ⟨c, hstep, Reach.rowKid c p k e c2 hc hrow hget hchild⟩
  | dupKid p its k it c2 hr hleaf hbody hget hty hchild ih =>
    rcases ih with ih | ⟨c, hstep, hc⟩
    · refine Or.inr ⟨c2, ?_, Reach.refl c2⟩
      refine Or.inr (Or.inr ⟨?_, its, k, it, ?_, hget, hty, hchild⟩)
      · rw [← ih]; exact hleaf
      · rw [← ih]; exact hbody
    · exact Or.inr ⟨c, hstep,
        Reach.dupKid c p its k it c2 hc hleaf hbody hget hty hchild⟩

/-- A successful column-kids loop ran a successful subtree call for
every entry, at the accumulated starting record number. -/
theorem colKidsLoop_ok (fns : Fns) (db : DB) (lvl : Nat) :
    ∀ (kids : List ColIndx) (sr : Nat) (st st' : VState),
      colKidsLoop fns db lvl kids sr st = .ok st' →
      ∀ k e, kids.get? k = some e →
        ∃ stA stB, fns.tree db none (sr + sumRecTake kids k) lvl e.off e.child
          stA = .ok stB := by
  intro kids
  induction kids with
  | nil => intro sr st st' _ k e hk; cases hk
  | cons e0 rest ih =>
    intro sr st st' h k e hk
    rw [colKidsLoop] at h
    cases htr : fns.tree db none sr lvl e0.off e0.child st with
    | error d => rw [htr] at h; cases h
    | ok st1 =>
      rw [htr] at h
      cases k with
      | zero =>
        injection hk with hk
        refine ⟨st, st1, ?_⟩
        rw [← hk]
        rw [show sr + sumRecTake (e0 :: rest) 0 = sr by
          unfold sumRecTake; simp]
        exact htr
      | succ k2 =>
        obtain ⟨stA, stB, hcall⟩ := ih (sr + e0.off.records) st1 st' h k2 e hk
        refine ⟨stA, stB, ?_⟩
        rw [sumRecTake_cons, ← Nat.add_assoc]
        exact hcall

/-- A successful row-kids loop ran a successful subtree call for every
entry, which therefore carries an off reference and a child. -/
theorem rowKidsLoop_ok (fns : Fns) (db : DB) (lvl : Nat) :
    ∀ (kids : List RowIndx) (st st' : VState),
      rowKidsLoop fns db lvl kids st = .ok st' →
      ∀ k e, kids.get? k = some e →
        ∃ o c stA stB, e.off = some o ∧ e.child = some c ∧
          fns.tree db (some e) 0 lvl o c stA = .ok stB := by
  intro kids
  induction kids with
  | nil => intro st st' _ k e hk; cases hk
  | cons rip rest ih =>
    intro st st' h k e hk
    rw [rowKidsLoop] at h
    have hnext : ∀ (stc : VState),
        (match rip.off, rip.child with
          | some off, some child =>
            match fns.tree db (some rip) 0 lvl off child stc with
            | Except.error d => Except.error d
            | Except.ok st3 => rowKidsLoop fns db lvl rest st3
          | _, _ => (Except.error (Diag.badIndex 0) : Except Diag VState))
          = Except.ok st' →
        ∀ k e, (rip :: rest).get? k = some e →
          ∃ o c stA stB, e.off = some o ∧ e.child = some c ∧
            fns.tree db (some e) 0 lvl o c stA = .ok stB := by
      intro stc hm k e hk
      cases hoff : rip.off with
      | none =>
        rw [hoff] at hm
        dsimp only at hm
        cases hm
      | some o =>
        cases hchild : rip.child with
        | none =>
          rw [hoff, hchild] at hm
          dsimp only at hm
          cases hm
        | some c =>
          rw [hoff, hchild] at hm
          dsimp only at hm
          cases htr : fns.tree db (some rip) 0 lvl o c stc with
          | error d => rw [htr] at hm; cases hm
          | ok st3 =>
            rw [htr] at hm
            cases k with
            | zero =>
              injection hk with hk
              refine ⟨o, c, stc, st3, ?_, ?_, ?_⟩
              · rw [← hk]; exact hoff
              · rw [← hk]; exact hchild
              · rw [← hk]; exact htr
            | succ k2 =>
              exact ih st3 st' hm k2 e hk
    cases hleaf : st.leaf with
    | none =>
      rw [hleaf] at h
      dsimp only at h
      exact hnext st h k e hk
    | some l =>
      rw [hleaf] at h
      dsimp only at h
      by_cases hr : (bt_verify_cmp db rip l false).ret ≠ 0
      · rw [if_pos hr] at h; cases h
      · rw [if_neg hr] at h
        exact hnext { st with leaf := none } h k e hk

/-- A successful item walk ran a successful duplicate-subtree call for
every OFF item of a row leaf. -/
theorem itemsLoop_off_ok (fns : Fns) (db : DB) (ptype : PageType)
    (addr size : Nat) (funcOpt : Option (Bytes → Bytes → Int)) :
    ∀ (its : List RawItem) (num offset : Nat)
      (lk ld : Option (Nat × Bytes)) (st st' : VState),
      itemsLoop fns db ptype addr size funcOpt its num offset lk ld st
        = .ok st' →
      ∀ k it, its.get? k = some it → ptype = .rowLeaf → it.itype = .off →
        ∀ c, it.offChild = some c →
          ∃ o stA stB, it.ioff = some o ∧
            fns.tree db none 0 WT_NOLEVEL o c stA = .ok stB := by
  intro its
  induction its with
  | nil => intro num offset lk ld st st' _ k it hk; cases hk
  | cons it0 rest ih =>
    intro num offset lk ld st st' h k it hk hpt hty c hc
    rw [itemsLoop] at h
    by_cases hA : offset + WT_ITEM_SIZE > size
    · rw [if_pos hA] at h; cases h
    rw [if_neg hA] at h
    by_cases hB : ¬ itemCompat it0.itype ptype = true
    · rw [if_pos hB] at h; cases h
    rw [if_neg hB] at h
    by_cases hC : ¬ itemLenOk it0.itype it0.len = true
    · rw [if_pos hC] at h; cases h
    rw [if_neg hC] at h
    by_cases hD : offset + WT_ITEM_SIZE + it0.len > size
    · rw [if_pos hD] at h; cases h
    rw [if_neg hD] at h
    cases hext : itemExtentCheck db (num + 1) addr it0 with
    | some d => rw [hext] at h; dsimp only at h; cases h
    | none =>
      rw [hext] at h
      dsimp only at h
      cases hov : itemOvflVerify fns db (num + 1) addr it0 st with
      | error d => rw [hov] at h; dsimp only at h; cases h
      | ok st2 =>
        rw [hov] at h
        dsimp only at h
        cases hso : itemSortStep db funcOpt addr (num + 1) it0 lk ld with
        | error d => rw [hso] at h; dsimp only at h; cases h
        | ok lkld =>
          rw [hso] at h
          dsimp only at h
          cases lkld with
          | mk lk2 ld2 =>
            cases hdp : itemOffpageDups fns db ptype addr it0 st2 with
            | error d => rw [hdp] at h; dsimp only at h; cases h
            | ok st3 =>
              rw [hdp] at h
              dsimp only at h
              cases k with
              | zero =>
                injection hk with hk
                unfold itemOffpageDups at hdp
                rw [← hk] at hty hc ⊢
                rw [if_pos ⟨hpt, hty⟩] at hdp
                cases hio : it0.ioff with
                | none =>
                  rw [hio, hc] at hdp
                  dsimp only at hdp
                  cases hdp
                | some o =>
                  rw [hio, hc] at hdp
                  dsimp only at hdp
                  exact ⟨o, st2, st3, rfl, hdp⟩
              | succ k2 =>
                exact ih (num + 1) (offset + WT_ITEM_SIZE + it0.len) lk2 ld2
                  st3 st' h k2 it hk hpt hty c hc

/-- Inversion of a successful page verification: the level check
passed, and on an item-bearing row leaf the item walk succeeded. -/
theorem pageStep_ok_inv (fns : Fns) (db : DB) (page : Page)
    (st st' : VState) (h : pageStep fns db page st = .ok st') :
    levelCheckOk page.hdr.ptype page.hdr.level = true ∧
    (∀ its, page.hdr.ptype = .rowLeaf → page.body = .items its →
      ∃ st2 st3, itemsLoop fns db page.hdr.ptype page.addr page.size
        (funcOf db page.hdr.ptype) its 0 WT_PAGE_HDR_SIZE none none st2
          = .ok st3) := by
  unfold pageStep at h
  dsimp only at h
  cases haf : bt_verify_addfrag db page st.bits with
  | mk o bits2 =>
    rw [haf] at h
    cases o with
    | some d => dsimp only at h; cases h
    | none =>
      dsimp only at h
      by_cases h1 : page.hdr.lsn0 ≠ 0 ∨ page.hdr.lsn1 ≠ 0
      · rw [if_pos h1] at h; cases h
      rw [if_neg h1] at h
      by_cases h2 : page.hdr.ptype = PageType.invalid
      · rw [if_pos h2] at h; cases h
      rw [if_neg h2] at h
      by_cases h3 : ¬ levelCheckOk page.hdr.ptype page.hdr.level = true
      · rw [if_pos h3] at h; cases h
      rw [if_neg h3] at h
      by_cases h4 : page.hdr.unused0 ≠ 0 ∨ page.hdr.unused1 ≠ 0
      · rw [if_pos h4] at h; cases h
      rw [if_neg h4] at h
      refine ⟨by simpa using h3, ?_⟩
      intro its hpt hbody
      rw [hpt, hbody] at h
      dsimp only at h
      rw [hpt]
      exact ⟨_, st', h⟩

/-- Inversion of a successful tree-walk frame: the page verification
succeeded, the non-root level and record checks passed, the
start-recno checks passed, and the child loops succeeded. -/
theorem treeBody_ok_inv (fns : Fns) (db : DB) (prip : Option RowIndx)
    (sr level : Nat) (off : WTOff) (page : Page) (st st' : VState)
    (h : treeBody fns db prip sr level off page st = .ok st') :
    (∃ st1, fns.page db page st = .ok st1) ∧
    (¬(level = WT_NOLEVEL) →
      page.hdr.level = level ∧ page.records = off.records) ∧
    ((page.hdr.ptype = .colFix ∨ page.hdr.ptype = .colInt ∨
      page.hdr.ptype = .colRcc ∨ page.hdr.ptype = .colVar) →
      page.hdr.start_recno = (if level = WT_NOLEVEL then 1 else sr)) ∧
    ((page.hdr.ptype = .dupInt ∨ page.hdr.ptype = .dupLeaf ∨
      page.hdr.ptype = .rowInt ∨ page.hdr.ptype = .rowLeaf) →
      page.hdr.start_recno = 0) ∧
    (page.hdr.ptype = .colInt → ∃ stA stB,
      colKidsLoop fns db
        ((if level = WT_NOLEVEL then page.hdr.level else level) - 1)
        page.icol page.hdr.start_recno stA = .ok stB) ∧
    ((page.hdr.ptype = .dupInt ∨ page.hdr.ptype = .rowInt) → ∃ stA stB,
      rowKidsLoop fns db
        ((if level = WT_NOLEVEL then page.hdr.level else level) - 1)
        page.irow stA = .ok stB) := by
  unfold treeBody at h
  cases hpg : fns.page db page st with
  | error d => rw [hpg] at h; dsimp only at h; cases h
  | ok st1 =>
    rw [hpg] at h
    dsimp only at h
    by_cases h1 : ¬(level = WT_NOLEVEL) ∧ page.hdr.level ≠ level
    · rw [if_pos h1] at h; cases h
    rw [if_neg h1] at h
    by_cases h2 : ¬(level = WT_NOLEVEL) ∧ page.records ≠ off.records
    · rw [if_pos h2] at h; cases h
    rw [if_neg h2] at h
    by_cases h3 : (page.hdr.ptype = .colFix ∨ page.hdr.ptype = .colInt ∨
        page.hdr.ptype = .colRcc ∨ page.hdr.ptype = .colVar) ∧
        page.hdr.start_recno ≠ (if level = WT_NOLEVEL then 1 else sr)
    · rw [if_pos h3] at h; cases h
    rw [if_neg h3] at h
    by_cases h4 : (page.hdr.ptype = .dupInt ∨ page.hdr.ptype = .dupLeaf ∨
        page.hdr.ptype = .rowInt ∨ page.hdr.ptype = .rowLeaf) ∧
        page.hdr.start_recno ≠ 0
    · rw [if_pos h4] at h; cases h
    rw [if_neg h4] at h
    split at h
    · cases h
    · refine ⟨⟨st1, rfl⟩, ?_, ?_, ?_, ?_, ?_⟩
      · intro hl
        constructor
        · by_contra hc
          exact h1 ⟨hl, hc⟩
        · by_contra hc
          exact h2 ⟨hl, hc⟩
      · intro hcol
        by_contra hc
        exact h3 ⟨hcol, hc⟩
      · intro hrow
        by_contra hc
        exact h4 ⟨hrow, hc⟩
      · intro hpt
        rw [hpt] at h
        dsimp only at h
        cases hkl : colKidsLoop fns db
            ((if level = WT_NOLEVEL then page.hdr.level else level) - 1)
            page.icol page.hdr.start_recno st1 with
        | error d => rw [hkl] at h; dsimp only at h; cases h
        | ok st2 => exact ⟨st1, st2, hkl⟩
      · intro hpt
        rcases hpt with hpt | hpt <;> rw [hpt] at h <;> dsimp only at h
        · cases hkl : rowKidsLoop fns db
              ((if level = WT_NOLEVEL then page.hdr.level else level) - 1)
              page.irow st1 with
          | error d => rw [hkl] at h; dsimp only at h; cases h
          | ok st2 => exact ⟨st1, st2, hkl⟩
        · cases hkl : rowKidsLoop fns db
              ((if level = WT_NOLEVEL then page.hdr.level else level) - 1)
              page.irow st1 with
          | error d => rw [hkl] at h; dsimp only at h; cases h
          | ok st2 => exact ⟨st1, st2, hkl⟩

/-- Internal page kinds pass the level check only above the leaf
sentinel. -/
theorem levelCheckOk_lt {t : PageType} {l : Nat}
    (ht : t = .colInt ∨ t = .dupInt ∨ t = .rowInt)
    (h : levelCheckOk t l = true) : WT_LLEAF < l := by
  rcases ht with ht | ht | ht <;> subst ht <;> simpa [levelCheckOk] using h

/-- The master walk invariant: a successful tree frame establishes the
frame facts about its own page and the per-edge walk facts at every
page it visits; a successful page verification establishes the level
check and, for every off-page duplicate root below it, the root reset
and the same walk facts. -/
theorem verify_master : ∀ n : Nat,
    (∀ (db : DB) (prip : Option RowIndx) (sr level : Nat) (off : WTOff)
      (page : Page) (st st' : VState),
      (verifyFns n).tree db prip sr level off page st = .ok st' →
      treeFrameOk sr level off page ∧ (∀ q, Reach page q → walkFacts q)) ∧
    (∀ (db : DB) (page : Page) (st st' : VState),
      (verifyFns n).page db page st = .ok st' →
      levelCheckOk page.hdr.ptype page.hdr.level = true ∧
      (∀ its k it c, page.hdr.ptype = .rowLeaf → page.body = .items its →
        its.get? k = some it → it.itype = .off → it.offChild = some c →
        (isColType c.hdr.ptype = true → c.hdr.start_recno = 1) ∧
        (∀ q, Reach c q → walkFacts q))) := by
  intro n
  induction n with
  | zero =>
    constructor
    · intro db prip sr level off page st st' h
      cases h
    · intro db page st st' h
      cases h
  | succ m ih =>
    obtain ⟨ihA, ihB⟩ := ih
    constructor
    · intro db prip sr level off page st st' h
      have ht : treeBody (verifyFns m) db prip sr level off page st
          = .ok st' := h
      obtain ⟨⟨st1, hpg⟩, hframe1, hcol_sr, hrow_sr, hcolloop, hrowloop⟩ :=
        treeBody_ok_inv (verifyFns m) db prip sr level off page st st' ht
      obtain ⟨hlc, hdup⟩ := ihB db page st st1 hpg
      have hlv2 : (if level = WT_NOLEVEL then page.hdr.level else level)
          = page.hdr.level := by
        by_cases hroot : level = WT_NOLEVEL
        · rw [if_pos hroot]
        · rw [if_neg hroot, (hframe1 hroot).1]
      have hcolkid : page.hdr.ptype = .colInt → ∀ k e,
          page.icol.get? k = some e →
          treeFrameOk (page.hdr.start_recno + sumRecTake page.icol k)
            (page.hdr.level - 1) e.off e.child ∧
          (∀ q, Reach e.child q → walkFacts q) ∧
          (page.hdr.level - 1 ≠ WT_NOLEVEL) := by
        intro hpt k e hk
        obtain ⟨stA, stB, hloop⟩ := hcolloop hpt
        obtain ⟨stC, stD, hcall⟩ := colKidsLoop_ok (verifyFns m) db _
          page.icol page.hdr.start_recno stA stB hloop k e hk
        rw [hlv2] at hcall
        have hkid := ihA db none (page.hdr.start_recno + sumRecTake page.icol k)
          (page.hdr.level - 1) e.off e.child stC stD hcall
        have hne : page.hdr.level - 1 ≠ WT_NOLEVEL := by
          have := levelCheckOk_lt (Or.inl hpt) hlc
          unfold WT_NOLEVEL
          unfold WT_LLEAF at this
          omega
        exact ⟨hkid.1, hkid.2, hne⟩
      have hrowkid : (page.hdr.ptype = .dupInt ∨ page.hdr.ptype = .rowInt) →
          ∀ k e c, page.irow.get? k = some e → e.child = some c →
          (∃ o, e.off = some o ∧
            treeFrameOk 0 (page.hdr.level - 1) o c) ∧
          (∀ q, Reach c q → walkFacts q) ∧
          (page.hdr.level - 1 ≠ WT_NOLEVEL) := by
        intro hpt k e c hk hc
        obtain ⟨stA, stB, hloop⟩ := hrowloop hpt
        obtain ⟨o, c2, stC, stD, hoff, hchild, hcall⟩ :=
          rowKidsLoop_ok (verifyFns m) db _ page.irow stA stB hloop k e hk
        rw [hc] at hchild
        injection hchild with hchild
        subst hchild
        rw [hlv2] at hcall
        have hkid := ihA db (some e) 0 (page.hdr.level - 1) o c stC stD hcall
        have hne : page.hdr.level - 1 ≠ WT_NOLEVEL := by
          have := levelCheckOk_lt (Or.inr (by
            rcases hpt with hpt | hpt
            · exact Or.inl hpt
            · exact Or.inr hpt)) hlc
          unfold WT_NOLEVEL
          unfold WT_LLEAF at this
          omega
        exact ⟨⟨o, hoff, hkid.1⟩, hkid.2, hne⟩
      have hfacts_refl : walkFacts page := by
        refine ⟨⟨?_, ?_, ?_⟩, ⟨?_, ?_⟩, ⟨?_, ?_⟩⟩
        · intro hrd
          exact hrow_sr ((isRowDupType_iff _).mp hrd)
        · intro hpt k e hk hcolchild
          obtain ⟨hkframe, _, hne⟩ := hcolkid hpt k e hk
          have := hkframe.2.1 hcolchild
          rw [if_neg hne] at this
          exact this
        · intro hpt its k it c hbody hk hty hc hcol
          exact (hdup its k it c hpt hbody hk hty hc).1 hcol
        · intro hpt k e hk
          obtain ⟨hkframe, _, hne⟩ := hcolkid hpt k e hk
          exact (hkframe.1 hne).1
        · intro hpt k e c hk hc
          obtain ⟨⟨o, _, hkframe⟩, _, hne⟩ := hrowkid hpt k e c hk hc
          exact (hkframe.1 hne).1
        · intro hpt k e hk
          obtain ⟨hkframe, _, hne⟩ := hcolkid hpt k e hk
          exact (hkframe.1 hne).2
        · intro hpt k e c o hk hc ho
          obtain ⟨⟨o2, ho2, hkframe⟩, _, hne⟩ := hrowkid hpt k e c hk hc
          rw [ho] at ho2
          injection ho2 with ho2
          rw [ho2]
          exact (hkframe.1 hne).2
      refine ⟨⟨hframe1, ?_, ?_⟩, ?_⟩
      · intro hct
        exact hcol_sr ((isColType_iff _).mp hct)
      · intro hrd
        exact hrow_sr ((isRowDupType_iff _).mp hrd)
      · intro q hq
        rcases reach_head page q hq with hqp | ⟨c, hstep, hcq⟩
        · rw [hqp]
          exact hfacts_refl
        · rcases hstep with ⟨hpt, k, e, hk, hceq⟩ |
            ⟨hpt, k, e, hk, hc⟩ | ⟨hpt, its, k, it, hbody, hk, hty, hc⟩
          · obtain ⟨_, hreach, _⟩ := hcolkid hpt k e hk
            rw [hceq] at hcq
            exact hreach q hcq
          · obtain ⟨_, hreach, _⟩ := hrowkid hpt k e c hk hc
            exact hreach q hcq
          · exact (hdup its k it c hpt hbody hk hty hc).2 q hcq
    · intro db page st st' h
      have hp : pageStep (verifyFns m) db page st = .ok st' := h
      obtain ⟨hlc, hitems⟩ := pageStep_ok_inv (verifyFns m) db page st st' hp
      refine ⟨hlc, ?_⟩
      intro its k it c hpt hbody hk hty hc
      obtain ⟨st2, st3, hloop⟩ := hitems its hpt hbody
      obtain ⟨o, stA, stB, hio, hcall⟩ := itemsLoop_off_ok (verifyFns m) db
        page.hdr.ptype page.addr page.size (funcOf db page.hdr.ptype) its 0
        WT_PAGE_HDR_SIZE none none st2 st3 hloop k it hk hpt hty c hc
      have hkid := ihA db none 0 WT_NOLEVEL o c stA stB hcall
      constructor
      · intro hcol
        have := hkid.1.2.1 hcol
        rw [if_pos rfl] at this
        exact this
      · exact hkid.2

/-- Witness for C4 at a concrete row-leaf boundary comparison. -/
theorem c4_boundary_cmp_witness :
    (bt_verify_cmp db0 (RowIndx.mk (plainKey [10]) none none) pageRowLeaf
        true).ret ≠ 0 ↔
      (true = true ∧ db0.btree_compare [10] [10] < 0) ∨
      (true = false ∧ 0 ≤ db0.btree_compare [10] [10]) :=
  (c4_boundary_cmp db0 (RowIndx.mk (plainKey [10]) none none) pageRowLeaf true
    (RowIndx.mk (plainKey [10]) none none) [10] [10] db0.btree_compare
    rfl rfl rfl rfl).1

/-- If the page verification succeeds but a non-root page's level
disagrees with the expected level, the frame fails with the tree-level
diagnostic. -/
theorem treeBody_levelMismatch_err (fns : Fns) (db : DB)
    (prip : Option RowIndx) (sr level : Nat) (off : WTOff) (page : Page)
    (st st1 : VState) (hpg : fns.page db page st = .ok st1)
    (hroot : ¬ level = WT_NOLEVEL) (hne : page.hdr.level ≠ level) :
    treeBody fns db prip sr level off page st =
      .error (.treeLevelMismatch off.addr page.hdr.level level) := by
  unfold treeBody
  rw [hpg]
  dsimp only
  rw [if_pos ⟨hroot, hne⟩]

/-- If the page verification and level check succeed but a non-root
page's record total disagrees with the parent reference, the frame
fails with the record-count diagnostic. -/
theorem treeBody_recordMismatch_err (fns : Fns) (db : DB)
    (prip : Option RowIndx) (sr level : Nat) (off : WTOff) (page : Page)
    (st st1 : VState) (hpg : fns.page db page st = .ok st1)
    (hroot : ¬ level = WT_NOLEVEL) (hlv : page.hdr.level = level)
    (hne : page.records ≠ off.records) :
    treeBody fns db prip sr level off page st =
      .error (.recordCountMismatch off.addr page.records off.records) := by
  unfold treeBody
  rw [hpg]
  dsimp only
  rw [if_neg (fun hc => hc.2 hlv), if_pos ⟨hroot, hne⟩]

/-- If the page verification, level and record checks succeed but a
column page's start_recno disagrees with the expected starting record
number (1 at the root), the frame fails with the starting-record
diagnostic. -/
theorem treeBody_startingRecord_err (fns : Fns) (db : DB)
    (prip : Option RowIndx) (sr level : Nat) (off : WTOff) (page : Page)
    (st st1 : VState) (hpg : fns.page db page st = .ok st1)
    (hlv : level = WT_NOLEVEL ∨
      (page.hdr.level = level ∧ page.records = off.records))
    (hcol : page.hdr.ptype = .colFix ∨ page.hdr.ptype = .colInt ∨
      page.hdr.ptype = .colRcc ∨ page.hdr.ptype = .colVar)
    (hne : page.hdr.start_recno ≠ (if level = WT_NOLEVEL then 1 else sr)) :
    treeBody fns db prip sr level off page st =
      .error (.startingRecord off.addr page.hdr.start_recno
        (if level = WT_NOLEVEL then 1 else sr)) := by
  unfold treeBody
  rw [hpg]
  dsimp only
  have h1 : ¬(¬(level = WT_NOLEVEL) ∧ page.hdr.level ≠ level) := by
    rcases hlv with hlv | hlv
    · exact fun hc => hc.1 hlv
    · exact fun hc => hc.2 hlv.1
  have h2 : ¬(¬(level = WT_NOLEVEL) ∧ page.records ≠ off.records) := by
    rcases hlv with hlv | hlv
    · exact fun hc => hc.1 hlv
    · exact fun hc => hc.2 hlv.2
  rw [if_neg h1, if_neg h2, if_pos ⟨hcol, hne⟩]

/-- A page passing the level-check switch satisfies the kind/level
agreement of the spec. -/
theorem levelCheckOk_levelMatch {t : PageType} {l : Nat}
    (h : levelCheckOk t l = true) : levelMatch t l := by
  unfold levelMatch
  cases t <;> simp_all [levelCheckOk]

/-- C6: the column start-recno discipline.  A successful walk frame
forces a column page's start_recno to equal the expected starting
record number, reset to 1 at the root, and a row or duplicate page's
start_recno to be 0; across every page the walk visits, the children of
a column internal page carry the parent's start_recno plus the record
counts of the earlier siblings, and a column off-page duplicate root
carries 1.  Conversely a column page whose start_recno differs from the
expected value (the earlier page, level and record checks passing)
fails with the starting-record diagnostic. -/
theorem c6_start_recno (n : Nat) (fns : Fns) (db : DB)
    (prip : Option RowIndx) (sr level : Nat) (off : WTOff) (page : Page)
    (st st1 : VState) :
    (∀ st', wt_bt_verify_tree n db prip sr level off page st = .ok st' →
      (isColType page.hdr.ptype = true →
        page.hdr.start_recno = (if level = WT_NOLEVEL then 1 else sr)) ∧
      (isRowDupType page.hdr.ptype = true → page.hdr.start_recno = 0) ∧
      (∀ q, Reach page q → startRecnoFacts q)) ∧
    (fns.page db page st = .ok st1 →
      (level = WT_NOLEVEL ∨
        (page.hdr.level = level ∧ page.records = off.records)) →
      isColType page.hdr.ptype = true →
      page.hdr.start_recno ≠ (if level = WT_NOLEVEL then 1 else sr) →
      treeBody fns db prip sr level off page st =
        .error (.startingRecord off.addr page.hdr.start_recno
          (if level = WT_NOLEVEL then 1 else sr))) := by
  constructor
  · intro st' h
    have hm := (verify_master n).1 db prip sr level off page st st' h
    exact ⟨hm.1.2.1, hm.1.2.2, fun q hq => (hm.2 q hq).1⟩
  · intro hpg hlv hcol hne
    exact treeBody_startingRecord_err fns db prip sr level off page st st1
      hpg hlv ((isColType_iff _).mp hcol) hne

/-- Witness for C6: the concrete column root resets to start_recno 1
and propagates the facts to its leaf; the same leaf called with an
unexpected running record number 5 fails with the starting-record
diagnostic. -/
theorem c6_start_recno_witness :
    pageColRoot.hdr.start_recno = 1 ∧
    startRecnoFacts pageColLeaf ∧
    treeBody (verifyFns 3) db2 none 5 1 offColLeaf pageColLeaf (vstate0 2) =
      .error (.startingRecord 1 1 5) := by
  have hpos := (c6_start_recno 4 (verifyFns 3) db2 none 0 WT_NOLEVEL
    ⟨0, 512, 0⟩ pageColRoot (vstate0 2) (vstate0 2)).1
    { bits := [true, true], leaf := none, fcnt := 2 } rfl
  refine ⟨hpos.1 rfl, ?_, ?_⟩
  · exact hpos.2.2 pageColLeaf
      (Reach.colKid pageColRoot pageColRoot 0 ⟨offColLeaf, pageColLeaf⟩
        (Reach.refl _) rfl rfl)
  · exact (c6_start_recno 3 (verifyFns 3) db2 none 5 1 offColLeaf
      pageColLeaf (vstate0 2)
      { bits := [false, true], leaf := none, fcnt := 1 }).2
      rfl (Or.inr ⟨rfl, rfl⟩) rfl (by decide)

/-- C7: the level discipline.  A successful page verification forces
the page's level to match its kind (NOLEVEL for the descriptor page,
the LEAF sentinel for the leaf and overflow kinds, strictly above LEAF
for the internal kinds); a successful walk frame forces a non-root
page's level to equal the expected level, the root's own level serving
as ground truth for its subtree, and across every visited page each
child's level is the parent's level minus 1; conversely a non-root
level mismatch fails with the tree-level diagnostic. -/
theorem c7_level_check (n : Nat) (fns : Fns) (db : DB)
    (prip : Option RowIndx) (sr level : Nat) (off : WTOff) (page : Page)
    (st st1 : VState) :
    (∀ st2, wt_bt_verify_page n db page st = .ok st2 →
      levelMatch page.hdr.ptype page.hdr.level) ∧
    (∀ st', wt_bt_verify_tree n db prip sr level off page st = .ok st' →
      (¬(level = WT_NOLEVEL) → page.hdr.level = level) ∧
      (∀ q, Reach page q → levelFacts q)) ∧
    (fns.page db page st = .ok st1 →
      ¬(level = WT_NOLEVEL) → page.hdr.level ≠ level →
      treeBody fns db prip sr level off page st =
        .error (.treeLevelMismatch off.addr page.hdr.level level)) := by
  refine ⟨?_, ?_, ?_⟩
  · intro st2 h
    have hlc : levelCheckOk page.hdr.ptype page.hdr.level = true := by
      cases n with
      | zero => cases h
      | succ m => exact ((verify_master (m + 1)).2 db page st st2 h).1
    exact levelCheckOk_levelMatch hlc
  · intro st' h
    have hm := (verify_master n).1 db prip sr level off page st st' h
    exact ⟨fun hroot => (hm.1.1 hroot).1, fun q hq => (hm.2 q hq).2.1⟩
  · intro hpg hroot hne
    exact treeBody_levelMismatch_err fns db prip sr level off page st st1
      hpg hroot hne

/-- Witness for C7: the concrete row leaf passes the page-level check
with a matching level, the row root's walk yields the level facts, and
calling the column leaf with expected level 5 fails with the tree-level
diagnostic. -/
theorem c7_level_check_witness :
    levelMatch pageRowLeaf.hdr.ptype pageRowLeaf.hdr.level ∧
    levelFacts pageRowRoot ∧
    treeBody (verifyFns 3) db2 none 0 5 offColLeaf pageColLeaf (vstate0 2) =
      .error (.treeLevelMismatch 1 1 5) := by
  refine ⟨?_, ?_, ?_⟩
  · exact (c7_level_check 3 (verifyFns 3) db2 none 0 WT_NOLEVEL offColLeaf
      pageRowLeaf (vstate0 2) (vstate0 2)).1
      { bits := [false, true], leaf := none, fcnt := 1 } rfl
  · have hm := (c7_level_check 4 (verifyFns 3) db2 none 0 WT_NOLEVEL
      ⟨0, 512, 0⟩ pageRowRoot (vstate0 2) (vstate0 2)).2.1
      { bits := [true, true], leaf := none, fcnt := 2 } rfl
    exact hm.2 pageRowRoot (Reach.refl _)
  · exact (c7_level_check 3 (verifyFns 3) db2 none 0 5 offColLeaf
      pageColLeaf (vstate0 2)
      { bits := [false, true], leaf := none, fcnt := 1 }).2.2
      rfl (by decide) (by decide)

/-- C10: the record-count check applies to every non-root page the
walker visits, row-store and duplicate pages included: a successful
frame forces a non-root page's in-memory record total to equal the
records field of the parent reference that led to it, and this holds
across every visited column, row and duplicate edge; conversely a
non-root mismatch (the level check passing first) fails with the
record-count diagnostic. -/
theorem c10_record_count (n : Nat) (fns : Fns) (db : DB)
    (prip : Option RowIndx) (sr level : Nat) (off : WTOff) (page : Page)
    (st st1 : VState) :
    (∀ st', wt_bt_verify_tree n db prip sr level off page st = .ok st' →
      (¬(level = WT_NOLEVEL) → page.records = off.records) ∧
      (∀ q, Reach page q → recordFacts q)) ∧
    (fns.page db page st = .ok st1 →
      ¬(level = WT_NOLEVEL) → page.hdr.level = level →
      page.records ≠ off.records →
      treeBody fns db prip sr level off page st =
        .error (.recordCountMismatch off.addr page.records off.records)) := by
  constructor
  · intro st' h
    have hm := (verify_master n).1 db prip sr level off page st st' h
    exact ⟨fun hroot => (hm.1.1 hroot).2, fun q hq => (hm.2 q hq).2.2⟩
  · intro hpg hroot hlv hne
    exact treeBody_recordMismatch_err fns db prip sr level off page st st1
      hpg hroot hlv hne

/-- Witness for C10: in the concrete row tree the leaf's record total
equals the parent OFF reference's records field, the row root's walk
yields the record facts on its row edge, and calling the leaf under a
parent reference claiming 9 records fails with the record-count
diagnostic. -/
theorem c10_record_count_witness :
    pageRowLeaf.records = offLeaf.records ∧
    recordFacts pageRowRoot ∧
    treeBody (verifyFns 3) db2 none 0 1
        { addr := 1, size := 512, records := 9 } pageRowLeaf (vstate0 2) =
      .error (.recordCountMismatch 1 1 9) := by
  have hm := (c10_record_count 4 (verifyFns 3) db2 none 0 WT_NOLEVEL
    ⟨0, 512, 0⟩ pageRowRoot (vstate0 2) (vstate0 2)).1
    { bits := [true, true], leaf := none, fcnt := 2 } rfl
  refine ⟨?_, hm.2 pageRowRoot (Reach.refl _), ?_⟩
  · exact (hm.2 pageRowRoot (Reach.refl _)).2 (Or.inr rfl) 0
      ⟨plainKey [10], some offLeaf, some pageRowLeaf⟩ pageRowLeaf offLeaf
      rfl rfl rfl
  · exact (c10_record_count 3 (verifyFns 3) db2 none 0 1
      { addr := 1, size := 512, records := 9 } pageRowLeaf (vstate0 2)
      { bits := [false, true], leaf := none, fcnt := 1 }).2
      rfl (by decide) rfl (by decide)

/-- An exempt item type is in neither sort class. -/
theorem sortExempt_classes {t : ItemType} (h : sortExempt t = true) :
    sortClassKey t = false ∧ sortClassDup t = false := by
  cases t <;> simp_all [sortExempt, sortClassKey, sortClassDup]

/-- A key-class item type is neither duplicate-class nor exempt. -/
theorem sortClassKey_not {t : ItemType} (h : sortClassKey t = true) :
    sortClassDup t = false ∧ sortExempt t = false := by
  cases t <;> simp_all [sortExempt, sortClassKey, sortClassDup]

/-- A duplicate-class item type is neither key-class nor exempt. -/
theorem sortClassDup_not {t : ItemType} (h : sortClassDup t = true) :
    sortClassKey t = false ∧ sortExempt t = false := by
  cases t <;> simp_all [sortExempt, sortClassKey, sortClassDup]

/-- keySeq over a cons whose head is key-class. -/
theorem keySeq_cons_pos (db : DB) (it : RawItem) (rest : List RawItem)
    (h : sortClassKey it.itype = true) :
    keySeq db (it :: rest) = itemSortBytes db it :: keySeq db rest := by
  simp [keySeq, List.filter_cons, h]

/-- keySeq over a cons whose head is not key-class. -/
theorem keySeq_cons_neg (db : DB) (it : RawItem) (rest : List RawItem)
    (h : sortClassKey it.itype = false) :
    keySeq db (it :: rest) = keySeq db rest := by
  simp [keySeq, List.filter_cons, h]

/-- dupSeq over a cons whose head is duplicate-class. -/
theorem dupSeq_cons_pos (db : DB) (it : RawItem) (rest : List RawItem)
    (h : sortClassDup it.itype = true) :
    dupSeq db (it :: rest) = itemSortBytes db it :: dupSeq db rest := by
  simp [dupSeq, List.filter_cons, h]

/-- dupSeq over a cons whose head is not duplicate-class. -/
theorem dupSeq_cons_neg (db : DB) (it : RawItem) (rest : List RawItem)
    (h : sortClassDup it.itype = false) :
    dupSeq db (it :: rest) = dupSeq db rest := by
  simp [dupSeq, List.filter_cons, h]

/-- A successful item walk leaves the decoded key-class sequence and
the decoded duplicate-class sequence strictly ascending under the
supplied collation, each prefixed by the respective incoming previous
item. -/
theorem itemsLoop_sorted (fns : Fns) (db : DB) (ptype : PageType)
    (addr size : Nat) (f : Bytes → Bytes → Int) :
    ∀ (its : List RawItem) (num offset : Nat)
      (lk ld : Option (Nat × Bytes)) (st st' : VState),
      itemsLoop fns db ptype addr size (some f) its num offset lk ld st
        = .ok st' →
      ascending f (prevList lk ++ keySeq db its) ∧
      ascending f (prevList ld ++ dupSeq db its) := by
  intro its
  induction its with
  | nil =>
    intro num offset lk ld st st' _
    constructor
    · cases lk with
      | none => simp [ascending, keySeq, prevList]
      | some p => cases p with | mk j b => simp [ascending, keySeq, prevList]
    · cases ld with
      | none => simp [ascending, dupSeq, prevList]
      | some p => cases p with | mk j b => simp [ascending, dupSeq, prevList]
  | cons it0 rest ih =>
    intro num offset lk ld st st' h
    rw [itemsLoop] at h
    by_cases hA : offset + WT_ITEM_SIZE > size
    · rw [if_pos hA] at h; cases h
    rw [if_neg hA] at h
    by_cases hB : ¬ itemCompat it0.itype ptype = true
    · rw [if_pos hB] at h; cases h
    rw [if_neg hB] at h
    by_cases hC : ¬ itemLenOk it0.itype it0.len = true
    · rw [if_pos hC] at h; cases h
    rw [if_neg hC] at h
    by_cases hD : offset + WT_ITEM_SIZE + it0.len > size
    · rw [if_pos hD] at h; cases h
    rw [if_neg hD] at h
    cases hext : itemExtentCheck db (num + 1) addr it0 with
    | some d => rw [hext] at h; dsimp only at h; cases h
    | none =>
      rw [hext] at h
      dsimp only at h
      cases hov : itemOvflVerify fns db (num + 1) addr it0 st with
      | error d => rw [hov] at h; dsimp only at h; cases h
      | ok st2 =>
        rw [hov] at h
        dsimp only at h
        cases hso : itemSortStep db (some f) addr (num + 1) it0 lk ld with
        | error d => rw [hso] at h; dsimp only at h; cases h
        | ok lkld =>
          rw [hso] at h
          dsimp only at h
          cases lkld with
          | mk lk2 ld2 =>
            cases hdp : itemOffpageDups fns db ptype addr it0 st2 with
            | error d => rw [hdp] at h; dsimp only at h; cases h
            | ok st3 =>
              rw [hdp] at h
              dsimp only at h
              have hih := ih (num + 1) (offset + WT_ITEM_SIZE + it0.len)
                lk2 ld2 st3 st' h
              unfold itemSortStep at hso
              by_cases hEx : sortExempt it0.itype = true
              · rw [if_pos hEx] at hso
                injection hso with hso
                injection hso with h1 h2
                subst h1
                subst h2
                rw [ascending, keySeq_cons_neg db it0 rest
                    (sortExempt_classes hEx).1,
                  ascending, dupSeq_cons_neg db it0 rest
                    (sortExempt_classes hEx).2]
                exact hih
              rw [if_neg hEx] at hso
              dsimp only at hso
              by_cases hK : sortClassKey it0.itype = true
              · rw [if_pos hK] at hso
                cases hlk : lk with
                | some jb =>
                  cases jb with
                  | mk j bk =>
                    rw [hlk] at hso
                    dsimp only at hso
                    by_cases hge : f bk (itemSortBytes db it0) ≥ 0
                    · rw [if_pos hge] at hso; cases hso
                    rw [if_neg hge] at hso
                    injection hso with hso
                    injection hso with h1 h2
                    subst h2
                    rw [← h1] at hih
                    constructor
                    · rw [ascending, keySeq_cons_pos db it0 rest hK]
                      have hc := hih.1
                      simp only [prevList, List.singleton_append] at hc ⊢
                      rw [List.chain'_cons]
                      exact ⟨by omega, hc⟩
                    · rw [ascending, dupSeq_cons_neg db it0 rest
                        (sortClassKey_not hK).1]
                      exact hih.2
                | none =>
                  rw [hlk] at hso
                  dsimp only at hso
                  injection hso with hso
                  injection hso with h1 h2
                  subst h2
                  rw [← h1] at hih
                  constructor
                  · rw [ascending, keySeq_cons_pos db it0 rest hK]
                    have hc := hih.1
                    simp only [prevList, List.singleton_append,
                      List.nil_append] at hc ⊢
                    exact hc
                  · rw [ascending, dupSeq_cons_neg db it0 rest
                      (sortClassKey_not hK).1]
                    exact hih.2
              rw [if_neg hK] at hso
              by_cases hDu : sortClassDup it0.itype = true
              · rw [if_pos hDu] at hso
                cases hld : ld with
                | some jb =>
                  cases jb with
                  | mk j bk =>
                    rw [hld] at hso
                    dsimp only at hso
                    by_cases hge : f bk (itemSortBytes db it0) ≥ 0
                    · rw [if_pos hge] at hso; cases hso
                    rw [if_neg hge] at hso
                    injection hso with hso
                    injection hso with h1 h2
                    subst h1
                    rw [← h2] at hih
                    constructor
                    · rw [ascending, keySeq_cons_neg db it0 rest
                        (sortClassDup_not hDu).1]
                      exact hih.1
                    · rw [ascending, dupSeq_cons_pos db it0 rest hDu]
                      have hc := hih.2
                      simp only [prevList, List.singleton_append] at hc ⊢
                      rw [List.chain'_cons]
                      exact ⟨by omega, hc⟩
                | none =>
                  rw [hld] at hso
                  dsimp only at hso
                  injection hso with hso
                  injection hso with h1 h2
                  subst h1
                  rw [← h2] at hih
                  constructor
                  · rw [ascending, keySeq_cons_neg db it0 rest
                      (sortClassDup_not hDu).1]
                    exact hih.1
                  · rw [ascending, dupSeq_cons_pos db it0 rest hDu]
                    have hc := hih.2
                    simp only [prevList, List.singleton_append,
                      List.nil_append] at hc ⊢
                    exact hc
              rw [if_neg hDu] at hso
              injection hso with hso
              injection hso with h1 h2
              subst h1
              subst h2
              rw [ascending, keySeq_cons_neg db it0 rest
                  (Bool.not_eq_true _ ▸ eq_false_of_ne_true hK),
                ascending, dupSeq_cons_neg db it0 rest
                  (Bool.not_eq_true _ ▸ eq_false_of_ne_true hDu)]
              exact hih

/-- C5: on an item-bearing page the key items (KEY, KEY_DUP, KEY_OVFL)
must be strictly ascending against the prior key item, and the
duplicate-data items (DATA_DUP, DATA_DUP_OVFL) strictly ascending
against the prior duplicate-data item, under the configured collation
after Huffman decoding: a successful item walk leaves both decoded
sequences strictly ascending, a comparison result ≥ 0 between the
prior same-class item and the current item is the incorrectly-sorted
error, DATA, DATA_OVFL, DEL and OFF items skip the comparison with the
sort history unchanged, and the collation is the duplicate collation on
DUP pages and the primary collation on ROW pages. -/
theorem c5_item_sort (fns : Fns) (db : DB) (ptype : PageType)
    (addr size num offset : Nat) (f : Bytes → Bytes → Int)
    (its : List RawItem) (it : RawItem) (j : Nat) (bk : Bytes)
    (lk ld : Option (Nat × Bytes)) (st st' : VState) :
    (itemsLoop fns db ptype addr size (some f) its num offset none none st
        = .ok st' →
      ascending f (keySeq db its) ∧ ascending f (dupSeq db its)) ∧
    (sortClassKey it.itype = true → f bk (itemSortBytes db it) ≥ 0 →
      itemSortStep db (some f) addr num it (some (j, bk)) ld =
        .error (.incorrectSorted j num addr)) ∧
    (sortClassDup it.itype = true → f bk (itemSortBytes db it) ≥ 0 →
      itemSortStep db (some f) addr num it lk (some (j, bk)) =
        .error (.incorrectSorted j num addr)) ∧
    (sortExempt it.itype = true →
      itemSortStep db (some f) addr num it lk ld = .ok (lk, ld)) ∧
    (funcOf db .dupInt = some db.btree_compare_dup ∧
      funcOf db .dupLeaf = some db.btree_compare_dup ∧
      funcOf db .rowInt = some db.btree_compare ∧
      funcOf db .rowLeaf = some db.btree_compare) := by
  refine ⟨?_, ?_, ?_, ?_, ⟨rfl, rfl, rfl, rfl⟩⟩
  · intro h
    have hs := itemsLoop_sorted fns db ptype addr size f its num offset
      none none st st' h
    simpa [prevList] using hs
  · intro hK hge
    unfold itemSortStep
    rw [if_neg (by simp [(sortClassKey_not hK).2])]
    dsimp only
    rw [if_pos hK]
    rw [if_pos hge]
  · intro hDu hge
    unfold itemSortStep
    rw [if_neg (by simp [(sortClassDup_not hDu).2])]
    dsimp only
    rw [if_neg (by simp [(sortClassDup_not hDu).1]), if_pos hDu]
    rw [if_pos hge]
  · intro hEx
    unfold itemSortStep
    rw [if_pos hEx]

/-- Witness for C5: the concrete row-leaf item list walks successfully
with its decoded keys strictly ascending; a key item sorting at or
below the previous key yields the incorrectly-sorted error, as does a
duplicate-data item against the previous duplicate-data item; a DATA
item skips the comparison and leaves the history unchanged. -/
theorem c5_item_sort_witness :
    ascending db2.btree_compare (keySeq db2
      [ .mk .key 1 [10] none none none none,
        .mk .data 1 [99] none none none none,
        .mk .key 1 [20] none none none none,
        .mk .data 1 [98] none none none none ]) ∧
    itemSortStep db2 (some db2.btree_compare) 1 2
        (.mk .key 1 [5] none none none none) (some (1, [10])) none =
      .error (.incorrectSorted 1 2 1) ∧
    itemSortStep db2 (some db2.btree_compare_dup) 1 2
        (.mk .dataDup 1 [5] none none none none) none (some (1, [10])) =
      .error (.incorrectSorted 1 2 1) ∧
    itemSortStep db2 (some db2.btree_compare) 1 2
        (.mk .data 1 [5] none none none none) (some (1, [10])) none =
      .ok (some (1, [10]), none) := by
  refine ⟨?_, ?_, ?_, ?_⟩
  · exact ((c5_item_sort (verifyFns 3) db2 .rowLeaf 1 512 0 WT_PAGE_HDR_SIZE
      db2.btree_compare
      [ .mk .key 1 [10] none none none none,
        .mk .data 1 [99] none none none none,
        .mk .key 1 [20] none none none none,
        .mk .data 1 [98] none none none none ]
      (.mk .key 1 [5] none none none none) 0 [] none none
      (vstate0 2) (vstate0 2)).1 rfl).1
  · exact (c5_item_sort (verifyFns 3) db2 .rowLeaf 1 512 2 WT_PAGE_HDR_SIZE
      db2.btree_compare []
      (.mk .key 1 [5] none none none none) 1 [10] none none
      (vstate0 2) (vstate0 2)).2.1 rfl (by decide)
  · exact (c5_item_sort (verifyFns 3) db2 .dupLeaf 1 512 2 WT_PAGE_HDR_SIZE
      db2.btree_compare_dup []
      (.mk .dataDup 1 [5] none none none none) 1 [10] none none
      (vstate0 2) (vstate0 2)).2.2.1 rfl (by decide)
  · exact (c5_item_sort (verifyFns 3) db2 .rowLeaf 1 512 2 WT_PAGE_HDR_SIZE
      db2.btree_compare []
      (.mk .data 1 [5] none none none none) 1 [10] (some (1, [10])) none
      (vstate0 2) (vstate0 2)).2.2.2.1 rfl

end BtVrfy
